import Mathlib

/-!
Verification development for the grid A* pathfinding engine
(`Grid`, `AStar.find_path`, `AlgorithmStats` of `main.py`).

The Python floats that arise in this program are exactly the numbers
`a + b·√2` (g-scores, movement costs) and `a + b·√2 + √m` (f-scores,
where `m` is a squared Euclidean distance, a natural number).  We embed
the scores exactly:

* `Q2` is the ring of numbers `a + b·√2` with integer `a`, `b`;
* an f-score is represented by a pair `(g, m) : Q2 × ℕ` denoting
  `val g + √m`;
* comparisons (`Q2.nonnegb`, `fLe`) are executable integer computations,
  each proved to agree with the order of the denoted real numbers.

The search loop itself is embedded as a fuel-indexed recursion whose
state mirrors the Python local variables of `AStar.find_path`
(`open_set`, `counter`, `g_scores`, `closed_set`, `node_map`,
`open_positions`) together with the statistics record and the trace of
observer-callback invocations.
-/

namespace AStarSpec

/-- Numbers of the form `a + b·√2`, `a b : ℤ`.  Every g-score, movement
cost and path cost computed by the program is of this form. -/
structure Q2 where
  a : ℤ
  b : ℤ
deriving DecidableEq

namespace Q2

def add (x y : Q2) : Q2 := ⟨x.a + y.a, x.b + y.b⟩

def sub (x y : Q2) : Q2 := ⟨x.a - y.a, x.b - y.b⟩

def neg (x : Q2) : Q2 := ⟨-x.a, -x.b⟩

def mul (x y : Q2) : Q2 := ⟨x.a * y.a + 2 * x.b * y.b, x.a * y.b + x.b * y.a⟩

instance : Add Q2 := ⟨add⟩

instance : Sub Q2 := ⟨sub⟩

instance : Neg Q2 := ⟨neg⟩

instance : Mul Q2 := ⟨mul⟩

instance : Zero Q2 := ⟨⟨0, 0⟩⟩

instance : One Q2 := ⟨⟨1, 0⟩⟩

/-- The number `√2` (the diagonal movement cost `math.sqrt(2)`). -/
def sqrt2 : Q2 := ⟨0, 1⟩

def ofNat (n : ℕ) : Q2 := ⟨n, 0⟩

/-- Real value denoted by a `Q2`. -/
noncomputable def val (x : Q2) : ℝ := (x.a : ℝ) + (x.b : ℝ) * Real.sqrt 2

/-- Executable nonnegativity test for `a + b·√2`, by squaring. -/
def nonnegb (x : Q2) : Bool :=
  if 0 ≤ x.a then
    if 0 ≤ x.b then true else decide (2 * x.b ^ 2 ≤ x.a ^ 2)
  else
    if 0 ≤ x.b then decide (x.a ^ 2 ≤ 2 * x.b ^ 2) else false

/-- Executable order on `Q2`. -/
def leb (x y : Q2) : Bool := nonnegb (y.sub x)

/-- Executable strict order on `Q2`. -/
def ltb (x y : Q2) : Bool := ! leb y x

@[simp] theorem val_add (x y : Q2) : (x + y).val = x.val + y.val := by
  show (Q2.add x y).val = _
  simp only [Q2.add, val]
  push_cast
  ring

@[simp] theorem val_sub (x y : Q2) : (x - y).val = x.val - y.val := by
  show (Q2.sub x y).val = _
  simp only [Q2.sub, val]
  push_cast
  ring

@[simp] theorem val_neg (x : Q2) : (Q2.neg x).val = -x.val := by
  simp only [Q2.neg, val]
  push_cast
  ring

theorem sqrt2_mul_sqrt2 : Real.sqrt 2 * Real.sqrt 2 = 2 :=
  Real.mul_self_sqrt (by norm_num)

@[simp] theorem val_mul (x y : Q2) : (x * y).val = x.val * y.val := by
  show (Q2.mul x y).val = _
  simp only [Q2.mul, val]
  push_cast
  linear_combination (-((x.b : ℝ) * (y.b : ℝ))) * sqrt2_mul_sqrt2

@[simp] theorem val_zero : (0 : Q2).val = 0 := by
  show val ⟨0, 0⟩ = 0
  simp [val]

@[simp] theorem val_one : (1 : Q2).val = 1 := by
  show val ⟨1, 0⟩ = 1
  simp [val]

@[simp] theorem val_sqrt2 : sqrt2.val = Real.sqrt 2 := by
  simp [sqrt2, val]

@[simp] theorem val_ofNat (n : ℕ) : (ofNat n).val = (n : ℝ) := by
  simp [ofNat, val]

/-- For nonnegative integers `p`, `q`: `p ≤ q·√2` iff `p² ≤ 2·q²`. -/
theorem le_mul_sqrt2_iff {p q : ℤ} (hp : 0 ≤ p) (hq : 0 ≤ q) :
    ((p : ℝ) ≤ (q : ℝ) * Real.sqrt 2 ↔ p ^ 2 ≤ 2 * q ^ 2) := by
  have hq2 : (q : ℝ) * Real.sqrt 2 = Real.sqrt (2 * q ^ 2) := by
    rw [mul_comm (2 : ℝ), Real.sqrt_mul (by positivity), Real.sqrt_sq (by exact_mod_cast hq)]
  rw [hq2, Real.le_sqrt (by exact_mod_cast hp) (by positivity)]
  exact ⟨fun h => by exact_mod_cast h, fun h => by exact_mod_cast h⟩

/-- For nonnegative integers `p`, `q`: `q·√2 ≤ p` iff `2·q² ≤ p²`. -/
theorem mul_sqrt2_le_iff {p q : ℤ} (hp : 0 ≤ p) (hq : 0 ≤ q) :
    ((q : ℝ) * Real.sqrt 2 ≤ (p : ℝ) ↔ 2 * q ^ 2 ≤ p ^ 2) := by
  have hq2 : (q : ℝ) * Real.sqrt 2 = Real.sqrt (2 * q ^ 2) := by
    rw [mul_comm (2 : ℝ), Real.sqrt_mul (by positivity), Real.sqrt_sq (by exact_mod_cast hq)]
  rw [hq2, Real.sqrt_le_left (by exact_mod_cast hp)]
  exact ⟨fun h => by exact_mod_cast h, fun h => by exact_mod_cast h⟩

/-- Correctness of the nonnegativity test. -/
theorem nonnegb_iff (x : Q2) : nonnegb x = true ↔ 0 ≤ x.val := by
  obtain ⟨a, b⟩ := x
  have hs2 : (0 : ℝ) < Real.sqrt 2 := Real.sqrt_pos.mpr (by norm_num)
  simp only [nonnegb, val]
  by_cases ha : 0 ≤ a <;> by_cases hb : 0 ≤ b <;>
      simp only [ha, hb, if_true, if_false, decide_eq_true_eq]
  · have ha' : (0 : ℝ) ≤ (a : ℝ) := by exact_mod_cast ha
    have hb' : (0 : ℝ) ≤ (b : ℝ) := by exact_mod_cast hb
    constructor
    · intro _
      nlinarith
    · intro _
      trivial
  · -- 0 ≤ a, b < 0 : nonnegativity means (-b)·√2 ≤ a
    have hb' : (0 : ℤ) ≤ -b := by omega
    have key := mul_sqrt2_le_iff ha hb'
    have hrw : ((0 : ℝ) ≤ (a : ℝ) + (b : ℝ) * Real.sqrt 2 ↔
        ((-b : ℤ) : ℝ) * Real.sqrt 2 ≤ (a : ℝ)) := by
      push_cast
      constructor <;> intro h <;> linarith
    rw [hrw, key]
    have hbb : (-b) ^ 2 = b ^ 2 := by ring
    rw [hbb]
  · -- a < 0, 0 ≤ b : nonnegativity means (-a) ≤ b·√2
    have ha' : (0 : ℤ) ≤ -a := by omega
    have key := le_mul_sqrt2_iff ha' hb
    have hrw : ((0 : ℝ) ≤ (a : ℝ) + (b : ℝ) * Real.sqrt 2 ↔
        ((-a : ℤ) : ℝ) ≤ ((b : ℤ) : ℝ) * Real.sqrt 2) := by
      push_cast
      constructor <;> intro h <;> linarith
    rw [hrw, key]
    have haa : (-a) ^ 2 = a ^ 2 := by ring
    rw [haa]
  · -- a < 0, b < 0 : the value is negative
    have ha' : (a : ℝ) < 0 := by exact_mod_cast (by omega : a < 0)
    have hb' : (b : ℝ) < 0 := by exact_mod_cast (by omega : b < 0)
    constructor
    · intro h
      simp at h
    · intro h
      exfalso
      nlinarith

theorem leb_iff (x y : Q2) : leb x y = true ↔ x.val ≤ y.val := by
  have h := nonnegb_iff (y.sub x)
  have hv : (y.sub x).val = y.val - x.val := val_sub y x
  rw [leb, h, hv]
  constructor <;> intro h' <;> linarith

theorem ltb_iff (x y : Q2) : ltb x y = true ↔ x.val < y.val := by
  rw [ltb, Bool.not_eq_true']
  constructor
  · intro h
    by_contra hc
    push_neg at hc
    exact absurd ((leb_iff y x).mpr hc) (by simp [h])
  · intro h
    by_contra hc
    have := (leb_iff y x).mp (by simpa using hc)
    linarith

theorem val_subr (x y : Q2) : (Q2.sub x y).val = x.val - y.val := val_sub x y

theorem val_addr (x y : Q2) : (Q2.add x y).val = x.val + y.val := val_add x y

theorem val_mulr (x y : Q2) : (Q2.mul x y).val = x.val * y.val := val_mul x y

theorem val_nonneg_of_coeff_nonneg {x : Q2} (ha : 0 ≤ x.a) (hb : 0 ≤ x.b) :
    0 ≤ x.val := by
  have := (nonnegb_iff x).mp (by simp [nonnegb, ha, hb])
  exact this

end Q2

/-- An f-score: the pair `(g, m)` denotes the real number `val g + √m`.
In the program every f-score is `g + h` where `g` is a `Q2` and
`h = √m` with `m` the squared Euclidean distance to the goal. -/
abbrev FS := Q2 × ℕ

/-- Real value denoted by an f-score. -/
noncomputable def fval (f : FS) : ℝ := f.1.val + Real.sqrt (f.2 : ℝ)

/-- Decides `val w ≤ 2·√k`. -/
def leTwoSqrt (w : Q2) (k : ℕ) : Bool :=
  if Q2.nonnegb (Q2.neg w) then true
  else Q2.nonnegb ((Q2.ofNat (4 * k)).sub (w.mul w))

/-- Decides `2·√k ≤ val w`. -/
def twoSqrtLe (k : ℕ) (w : Q2) : Bool :=
  if Q2.nonnegb w then Q2.nonnegb ((w.mul w).sub (Q2.ofNat (4 * k)))
  else false

/-- Squaring characterizes order on nonnegative reals. -/
theorem le_iff_sq_le {A B : ℝ} (hA : 0 ≤ A) (hB : 0 ≤ B) : A ≤ B ↔ A ^ 2 ≤ B ^ 2 :=
  ⟨fun h => by nlinarith, fun h => by nlinarith⟩

theorem leTwoSqrt_iff (w : Q2) (k : ℕ) :
    leTwoSqrt w k = true ↔ w.val ≤ 2 * Real.sqrt (k : ℝ) := by
  have hk : (0 : ℝ) ≤ (k : ℝ) := by positivity
  have h2k : 2 * Real.sqrt (k : ℝ) = Real.sqrt ((4 * k : ℕ) : ℝ) := by
    push_cast
    rw [show ((4 : ℝ) * k) = 2 ^ 2 * k by ring, Real.sqrt_mul (by positivity),
      Real.sqrt_sq (by norm_num)]
  rw [leTwoSqrt]
  by_cases hw : Q2.nonnegb (Q2.neg w) = true
  · have hwv : 0 ≤ -w.val := by
      have := (Q2.nonnegb_iff (Q2.neg w)).mp hw
      simpa using this
    simp only [hw, if_true, true_iff]
    have : (0 : ℝ) ≤ 2 * Real.sqrt (k : ℝ) := by positivity
    linarith
  · have hwv : 0 < w.val := by
      by_contra hc
      push_neg at hc
      exact hw ((Q2.nonnegb_iff (Q2.neg w)).mpr (by simpa using hc))
    simp only [hw, Bool.false_eq_true, if_false]
    rw [Q2.nonnegb_iff, Q2.val_subr, Q2.val_mulr, Q2.val_ofNat, h2k,
      Real.le_sqrt (le_of_lt hwv) (by positivity)]
    constructor
    · intro h
      nlinarith
    · intro h
      nlinarith

theorem twoSqrtLe_iff (k : ℕ) (w : Q2) :
    twoSqrtLe k w = true ↔ 2 * Real.sqrt (k : ℝ) ≤ w.val := by
  have hk : (0 : ℝ) ≤ (k : ℝ) := by positivity
  have h2k : 2 * Real.sqrt (k : ℝ) = Real.sqrt ((4 * k : ℕ) : ℝ) := by
    push_cast
    rw [show ((4 : ℝ) * k) = 2 ^ 2 * k by ring, Real.sqrt_mul (by positivity),
      Real.sqrt_sq (by norm_num)]
  rw [twoSqrtLe]
  by_cases hw : Q2.nonnegb w = true
  · have hwv : 0 ≤ w.val := (Q2.nonnegb_iff w).mp hw
    simp only [hw, if_true]
    rw [Q2.nonnegb_iff, Q2.val_subr, Q2.val_mulr, Q2.val_ofNat, h2k,
      Real.sqrt_le_left hwv]
    constructor
    · intro h
      nlinarith
    · intro h
      nlinarith
  · have hwv : w.val < 0 := by
      by_contra hc
      push_neg at hc
      exact hw ((Q2.nonnegb_iff w).mpr hc)
    simp only [hw, Bool.false_eq_true, if_false, false_iff]
    intro h
    have : (0 : ℝ) ≤ 2 * Real.sqrt (k : ℝ) := by positivity
    linarith

/-- Executable order on f-scores (the comparison the heap performs on
`f_score` floats, realized exactly). -/
def fLe (f1 f2 : FS) : Bool :=
  let u := f1.1.sub f2.1
  if Q2.nonnegb (Q2.neg u) then
    if f1.2 ≤ f2.2 then true
    else leTwoSqrt ((Q2.ofNat (f1.2 + f2.2)).sub (u.mul u)) (f1.2 * f2.2)
  else
    if f2.2 ≤ f1.2 then false
    else twoSqrtLe (f1.2 * f2.2) ((Q2.ofNat (f1.2 + f2.2)).sub (u.mul u))

theorem sqrt_mul_sqrt_nat (m1 m2 : ℕ) :
    Real.sqrt (m1 : ℝ) * Real.sqrt (m2 : ℝ) = Real.sqrt ((m1 * m2 : ℕ) : ℝ) := by
  push_cast
  rw [Real.sqrt_mul (by positivity)]

/-- Correctness of the f-score comparison. -/
theorem fLe_iff (f1 f2 : FS) : fLe f1 f2 = true ↔ fval f1 ≤ fval f2 := by
  obtain ⟨g1, m1⟩ := f1
  obtain ⟨g2, m2⟩ := f2
  have hm1 : (0 : ℝ) ≤ (m1 : ℝ) := by positivity
  have hm2 : (0 : ℝ) ≤ (m2 : ℝ) := by positivity
  have hs1 : (0 : ℝ) ≤ Real.sqrt (m1 : ℝ) := Real.sqrt_nonneg _
  have hs2 : (0 : ℝ) ≤ Real.sqrt (m2 : ℝ) := Real.sqrt_nonneg _
  have hmain : (fval (g1, m1) ≤ fval (g2, m2) ↔
      (g1.sub g2).val ≤ Real.sqrt (m2 : ℝ) - Real.sqrt (m1 : ℝ)) := by
    rw [fval, fval, Q2.val_subr]
    constructor <;> intro h <;> dsimp only at h ⊢ <;> linarith
  rw [hmain, fLe]
  set u := g1.sub g2 with hu
  by_cases hnn : Q2.nonnegb (Q2.neg u) = true
  · have huv : u.val ≤ 0 := by
      have := (Q2.nonnegb_iff (Q2.neg u)).mp hnn
      simpa using this
    simp only [hnn, if_true]
    by_cases hm : m1 ≤ m2
    · simp only [hm, if_true, true_iff]
      have : Real.sqrt (m1 : ℝ) ≤ Real.sqrt (m2 : ℝ) :=
        Real.sqrt_le_sqrt (by exact_mod_cast hm)
      linarith
    · simp only [hm, if_false]
      push_neg at hm
      rw [leTwoSqrt_iff]
      have hsq : (Real.sqrt (m1 : ℝ) - Real.sqrt (m2 : ℝ)) ^ 2 =
          (m1 : ℝ) + (m2 : ℝ) - 2 * Real.sqrt ((m1 * m2 : ℕ) : ℝ) := by
        rw [← sqrt_mul_sqrt_nat]
        have e1 : Real.sqrt (m1 : ℝ) ^ 2 = (m1 : ℝ) := Real.sq_sqrt hm1
        have e2 : Real.sqrt (m2 : ℝ) ^ 2 = (m2 : ℝ) := Real.sq_sqrt hm2
        nlinarith
      have hkey := le_iff_sq_le
        (show (0 : ℝ) ≤ Real.sqrt (m1 : ℝ) - Real.sqrt (m2 : ℝ) by
          have : Real.sqrt (m2 : ℝ) ≤ Real.sqrt (m1 : ℝ) :=
            Real.sqrt_le_sqrt (by exact_mod_cast hm.le)
          linarith)
        (show (0 : ℝ) ≤ -u.val by linarith)
      rw [Q2.val_subr, Q2.val_mulr, Q2.val_ofNat, Nat.cast_add]
      constructor
      · intro h
        have h1 : Real.sqrt (m1 : ℝ) - Real.sqrt (m2 : ℝ) ≤ -u.val := by
          have := hkey.mpr (by nlinarith)
          linarith
        linarith
      · intro h
        have h1 : (Real.sqrt (m1 : ℝ) - Real.sqrt (m2 : ℝ)) ^ 2 ≤ (-u.val) ^ 2 :=
          hkey.mp (by linarith)
        nlinarith
  · have huv : 0 < u.val := by
      by_contra hc
      push_neg at hc
      exact hnn ((Q2.nonnegb_iff (Q2.neg u)).mpr (by simpa using hc))
    simp only [hnn, Bool.false_eq_true, if_false]
    by_cases hm : m2 ≤ m1
    · simp only [hm, if_true, Bool.false_eq_true, false_iff]
      intro h
      have : Real.sqrt (m2 : ℝ) ≤ Real.sqrt (m1 : ℝ) :=
        Real.sqrt_le_sqrt (by exact_mod_cast hm)
      linarith
    · simp only [hm, if_false]
      push_neg at hm
      rw [twoSqrtLe_iff]
      have hsq : (Real.sqrt (m2 : ℝ) - Real.sqrt (m1 : ℝ)) ^ 2 =
          (m1 : ℝ) + (m2 : ℝ) - 2 * Real.sqrt ((m1 * m2 : ℕ) : ℝ) := by
        rw [← sqrt_mul_sqrt_nat]
        have e1 : Real.sqrt (m1 : ℝ) ^ 2 = (m1 : ℝ) := Real.sq_sqrt hm1
        have e2 : Real.sqrt (m2 : ℝ) ^ 2 = (m2 : ℝ) := Real.sq_sqrt hm2
        nlinarith
      have hC : (0 : ℝ) ≤ Real.sqrt (m2 : ℝ) - Real.sqrt (m1 : ℝ) := by
        have : Real.sqrt (m1 : ℝ) ≤ Real.sqrt (m2 : ℝ) :=
          Real.sqrt_le_sqrt (by exact_mod_cast hm.le)
        linarith
      have hkey := le_iff_sq_le (le_of_lt huv) hC
      rw [Q2.val_subr, Q2.val_mulr, Q2.val_ofNat, Nat.cast_add]
      constructor
      · intro h
        have h1 : u.val ^ 2 ≤ (Real.sqrt (m2 : ℝ) - Real.sqrt (m1 : ℝ)) ^ 2 := by
          nlinarith
        exact hkey.mpr h1
      · intro h
        have h1 := hkey.mp h
        nlinarith

/-- Executable strict order on f-scores. -/
def fLt (f1 f2 : FS) : Bool := ! fLe f2 f1

theorem fLt_iff (f1 f2 : FS) : fLt f1 f2 = true ↔ fval f1 < fval f2 := by
  rw [fLt, Bool.not_eq_true']
  constructor
  · intro h
    by_contra hc
    push_neg at hc
    exact absurd ((fLe_iff f2 f1).mpr hc) (by simp [h])
  · intro h
    by_contra hc
    have := (fLe_iff f2 f1).mp (by simpa using hc)
    linarith

/-! ## The grid (`Grid` of `main.py`) -/

/-- A grid position `(x, y)`; Python tuples of ints. -/
abbrev Pos := ℤ × ℤ

/-- Cell types in the grid (`CellType` of `main.py`). -/
inductive CellType where
  | EMPTY
  | OBSTACLE
  | START
  | END
  | PATH
  | OPEN
  | CLOSED
deriving DecidableEq

/-- The grid (`Grid.__init__` stores `width`, `height`, the row-major
`cells` array, and optional designated start/end positions; `end` is a
Lean keyword so the latter field is called `endp`). -/
structure Grid where
  width : ℕ
  height : ℕ
  cells : List (List CellType)
  start : Option Pos
  endp : Option Pos
deriving DecidableEq

/-- `Grid(width, height)`: all cells EMPTY, no start/end. -/
def Grid.make (width height : ℕ) : Grid :=
  ⟨width, height, List.replicate height (List.replicate width CellType.EMPTY),
    none, none⟩

/-- `Grid.is_valid`: `0 <= x < width and 0 <= y < height`. -/
def Grid.is_valid (g : Grid) (pos : Pos) : Bool :=
  decide (0 ≤ pos.1) && decide (pos.1 < (g.width : ℤ)) &&
    (decide (0 ≤ pos.2) && decide (pos.2 < (g.height : ℤ)))

/-- The cell stored at a position (`self.cells[y][x]`; only read under
`is_valid`, the `getD` defaults are never hit on an in-bounds access of a
well-formed grid). -/
def Grid.cellAt (g : Grid) (pos : Pos) : CellType :=
  (g.cells.getD pos.2.toNat []).getD pos.1.toNat CellType.EMPTY

/-- `Grid.is_walkable`: valid and not an obstacle. -/
def Grid.is_walkable (g : Grid) (pos : Pos) : Bool :=
  g.is_valid pos && decide (g.cellAt pos ≠ CellType.OBSTACLE)

/-- `Grid.set_cell`: writes the cell if the position is valid, else no-op. -/
def Grid.set_cell (g : Grid) (pos : Pos) (cell_type : CellType) : Grid :=
  if g.is_valid pos then
    { g with cells := (g.cells.set pos.2.toNat
        ((g.cells.getD pos.2.toNat []).set pos.1.toNat cell_type)) }
  else g

/-- `Grid.get_cell`: reads the cell if valid, else reports OBSTACLE. -/
def Grid.get_cell (g : Grid) (pos : Pos) : CellType :=
  if g.is_valid pos then g.cellAt pos else CellType.OBSTACLE

/-- The direction list of `Grid.get_neighbors`: cardinal first, then
diagonal, in source order. -/
def directions : List (ℤ × ℤ) :=
  [(0, -1), (0, 1), (-1, 0), (1, 0), (-1, -1), (-1, 1), (1, -1), (1, 1)]

/-- The corner-cutting side condition for one direction: for a diagonal
step at least one of the two orthogonally adjacent cells is walkable. -/
def Grid.diagOk (g : Grid) (pos : Pos) (d : ℤ × ℤ) : Bool :=
  if d.1 ≠ 0 ∧ d.2 ≠ 0 then
    g.is_walkable (pos.1 + d.1, pos.2) || g.is_walkable (pos.1, pos.2 + d.2)
  else true

/-- `Grid.get_neighbors`: iterate over `directions`, appending each
walkable target that passes the corner-cutting check. -/
def Grid.get_neighbors (g : Grid) (pos : Pos) : List Pos :=
  directions.foldl
    (fun neighbors d =>
      let new_pos : Pos := (pos.1 + d.1, pos.2 + d.2)
      if g.is_walkable new_pos then
        if d.1 ≠ 0 ∧ d.2 ≠ 0 then
          if ¬ (g.is_walkable (pos.1 + d.1, pos.2) ||
              g.is_walkable (pos.1, pos.2 + d.2)) then
            neighbors
          else neighbors ++ [new_pos]
        else neighbors ++ [new_pos]
      else neighbors)
    []

/-- One step of `get_neighbors` as an option-valued filter. -/
def stepFilter (g : Grid) (pos : Pos) (d : ℤ × ℤ) : Option Pos :=
  let new_pos : Pos := (pos.1 + d.1, pos.2 + d.2)
  if g.is_walkable new_pos && g.diagOk pos d then some new_pos else none

theorem get_neighbors_foldl_eq (g : Grid) (pos : Pos) (ds : List (ℤ × ℤ))
    (acc : List Pos) :
    ds.foldl
      (fun neighbors d =>
        let new_pos : Pos := (pos.1 + d.1, pos.2 + d.2)
        if g.is_walkable new_pos then
          if d.1 ≠ 0 ∧ d.2 ≠ 0 then
            if ¬ (g.is_walkable (pos.1 + d.1, pos.2) ||
                g.is_walkable (pos.1, pos.2 + d.2)) then
              neighbors
            else neighbors ++ [new_pos]
          else neighbors ++ [new_pos]
        else neighbors)
      acc = acc ++ ds.filterMap (stepFilter g pos) := by
  induction ds generalizing acc with
  | nil => simp
  | cons d rest ih =>
    rw [List.foldl_cons, List.filterMap_cons, ih]
    by_cases hw : g.is_walkable (pos.1 + d.1, pos.2 + d.2) = true <;>
        by_cases hd : d.1 ≠ 0 ∧ d.2 ≠ 0 <;>
        by_cases hc : (g.is_walkable (pos.1 + d.1, pos.2) ||
          g.is_walkable (pos.1, pos.2 + d.2)) = true <;>
      simp [stepFilter, Grid.diagOk, hw, hd, hc, List.append_assoc]

/-- `get_neighbors` as a filter over the direction list. -/
theorem Grid.get_neighbors_eq (g : Grid) (pos : Pos) :
    g.get_neighbors pos = directions.filterMap (stepFilter g pos) := by
  rw [Grid.get_neighbors, get_neighbors_foldl_eq]
  simp

/-! ## The cost model (`AStar.heuristic`, `AStar.get_movement_cost`) -/

namespace AStar

/-- The squared Euclidean distance `(x2-x1)² + (y2-y1)²`, a natural
number; the heuristic is its square root. -/
def heuristicSq (pos1 pos2 : Pos) : ℕ :=
  ((pos2.1 - pos1.1) ^ 2 + (pos2.2 - pos1.2) ^ 2).toNat

/-- `AStar.heuristic`: Euclidean distance. -/
noncomputable def heuristic (pos1 pos2 : Pos) : ℝ :=
  Real.sqrt (heuristicSq pos1 pos2 : ℝ)

/-- `AStar.get_movement_cost`: √2 when `abs(x2-x1) + abs(y2-y1) == 2`,
else 1. -/
def get_movement_cost (pos1 pos2 : Pos) : Q2 :=
  if (pos2.1 - pos1.1).natAbs + (pos2.2 - pos1.2).natAbs = 2 then Q2.sqrt2
  else 1

end AStar

/-! ## Search nodes and the frontier -/

/-- A search node (`Node` of `main.py`): f-score, position, g-score,
h-score and an optional parent, mirrored by the two constructors.  The
`timestamp` field (wall-clock time, used only for animation) is not
modeled.  The h-score is stored as the squared distance `m` (the float
`h` is `√m`), and the f-score as the pair `(g, m)` denoting `g + √m`. -/
inductive SNode where
  | root (f_score : FS) (position : Pos) (g_score : Q2) (h_score : ℕ)
  | child (f_score : FS) (position : Pos) (g_score : Q2) (h_score : ℕ)
      (parent : SNode)
deriving DecidableEq

def SNode.position : SNode → Pos
  | SNode.root _ p _ _ => p
  | SNode.child _ p _ _ _ => p

def SNode.f_score : SNode → FS
  | SNode.root f _ _ _ => f
  | SNode.child f _ _ _ _ => f

def SNode.g_score : SNode → Q2
  | SNode.root _ _ gs _ => gs
  | SNode.child _ _ gs _ _ => gs

def SNode.h_score : SNode → ℕ
  | SNode.root _ _ _ hs => hs
  | SNode.child _ _ _ hs _ => hs

/-- The position list collected by `_reconstruct_path` before reversal
(walk the parent chain from the node). -/
def SNode.walkPositions : SNode → List Pos
  | SNode.root _ p _ _ => [p]
  | SNode.child _ p _ _ parent => p :: parent.walkPositions

/-- `AStar._reconstruct_path`: walk parents, then reverse. -/
def AStar.reconstruct_path (node : SNode) : List Pos :=
  node.walkPositions.reverse

/-- A heap entry `(f_score, counter, node)`. -/
abbrev Entry := FS × ℕ × SNode

/-- The strict order `heapq` uses on entries: lexicographic on
`(f_score, counter)`; counters are unique so the node is never compared. -/
def entryLt (e1 e2 : Entry) : Bool :=
  fLt e1.1 e2.1 || (fLe e1.1 e2.1 && decide (e1.2.1 < e2.2.1))

/-- The minimum entry of `e :: l` under `entryLt`. -/
def selMin (e : Entry) (l : List Entry) : Entry :=
  l.foldl (fun m x => if entryLt x m then x else m) e

/-- Remove the first occurrence of an entry from a list. -/
def eraseFirst : List Entry → Entry → List Entry
  | [], _ => []
  | x :: xs, a => if x = a then xs else x :: eraseFirst xs a

/-- `heapq.heappop` on a heap with pairwise-distinct counters: return
the least entry and the remaining entries. -/
def popMin (l : List Entry) : Option (Entry × List Entry) :=
  match l with
  | [] => none
  | e :: rest => some (selMin e rest, eraseFirst (e :: rest) (selMin e rest))

/-! ## Statistics, observer events, and the search loop -/

/-- `AlgorithmStats` of `main.py`.  `execution_time` is wall-clock time
and is not modeled. -/
structure AlgorithmStats where
  nodes_explored : ℕ := 0
  nodes_in_open : ℕ := 0
  max_open_size : ℕ := 0
  path_length : ℕ := 0
  path_cost : Q2 := ⟨0, 0⟩
  iterations : ℕ := 0
deriving DecidableEq

/-- One positional argument of a `visualize_callback` invocation. -/
inductive PyArg where
  | posSet (s : Finset Pos)
  | pathNone
  | table (t : List (Pos × SNode))
  | position (p : Pos)
deriving DecidableEq

/-- The argument list of the call
`visualize_callback(open_positions, closed_set, None, node_map,
current.position)` in source order. -/
def mkCallbackArgs (open_positions closed_set : Finset Pos)
    (node_map : List (Pos × SNode)) (current : Pos) : List PyArg :=
  [PyArg.posSet open_positions, PyArg.posSet closed_set, PyArg.pathNone,
    PyArg.table node_map, PyArg.position current]

/-- Association-list lookup (Python `dict` read). -/
def lookupA {α : Type} : List (Pos × α) → Pos → Option α
  | [], _ => none
  | (k, v) :: rest, p => if k = p then some v else lookupA rest p

/-- Association-list update (Python `dict` write: replace or append). -/
def updateA {α : Type} : List (Pos × α) → Pos → α → List (Pos × α)
  | [], p, v => [(p, v)]
  | (k, w) :: rest, p, v =>
      if k = p then (k, v) :: rest else (k, w) :: updateA rest p v

/-- The local state of `AStar.find_path`'s loop. -/
structure AlgState where
  open_set : List Entry
  counter : ℕ
  g_scores : List (Pos × Q2)
  closed_set : Finset Pos
  node_map : List (Pos × SNode)
  open_positions : Finset Pos
deriving DecidableEq

/-- Which optional arguments were supplied to `find_path`
(`visualize_callback`, `stats`). -/
structure RunCfg where
  hasObs : Bool
  hasStats : Bool
deriving DecidableEq

/-- Auxiliary run data threaded through the loop: the mutable stats
record, the trace of observer invocations, a ghost log of the stats
record at the top of each iteration, and the grid object (threaded to
express that the loop never writes to it). -/
structure Aux where
  stats : AlgorithmStats
  events : List (List PyArg)
  statsLog : List AlgorithmStats
  grid : Grid
deriving DecidableEq

/-- Outcome of running the loop with a given amount of fuel. -/
inductive RunResult where
  | found (path : List Pos) (st : AlgState) (aux : Aux)
  | exhausted (st : AlgState) (aux : Aux)
  | fuelOut (st : AlgState) (aux : Aux)
deriving DecidableEq

/-- The body of the `for neighbor_pos in grid.get_neighbors(...)` loop
for a single neighbor. -/
def expandOne (t : Pos) (current : SNode) (st : AlgState) (npos : Pos) :
    AlgState :=
  if npos ∈ st.closed_set then st
  else
    let movement_cost := AStar.get_movement_cost current.position npos
    let tentative_g := current.g_score + movement_cost
    let skip : Bool :=
      match lookupA st.g_scores npos with
      | some gv => Q2.nonnegb (tentative_g.sub gv)
      | none => false
    if skip then st
    else
      let h_score := AStar.heuristicSq npos t
      let f_score : FS := (tentative_g, h_score)
      let node := SNode.child f_score npos tentative_g h_score current
      { st with
        g_scores := updateA st.g_scores npos tentative_g
        open_set := st.open_set ++ [(f_score, st.counter, node)]
        counter := st.counter + 1
        open_positions := insert npos st.open_positions
        node_map := updateA st.node_map npos node }

/-- The full neighbor-expansion loop for the popped node. -/
def expandAll (neighbors : List Pos) (t : Pos) (current : SNode)
    (st : AlgState) : AlgState :=
  neighbors.foldl (expandOne t current) st

/-- The `while open_set:` loop of `AStar.find_path`, indexed by fuel.
Each recursive call consumes one unit of fuel per iteration; `fuelOut`
marks fuel exhaustion (shown unreachable for enough fuel). -/
def loopA (t : Pos) (cfg : RunCfg) : ℕ → AlgState → Aux → RunResult
  | 0, st, aux => RunResult.fuelOut st aux
  | Nat.succ fuel, st, aux =>
    match popMin st.open_set with
    | none => RunResult.exhausted st aux
    | some (e, rest) =>
      let stats1 := if cfg.hasStats then
          { aux.stats with
            iterations := aux.stats.iterations + 1
            nodes_in_open := st.open_set.length
            max_open_size := max aux.stats.max_open_size st.open_set.length }
        else aux.stats
      let aux1 := { aux with stats := stats1, statsLog := aux.statsLog ++ [stats1] }
      let current := e.2.2
      if current.position ∈ st.closed_set then
        loopA t cfg fuel { st with open_set := rest } aux1
      else
        let closed1 := insert current.position st.closed_set
        let openPos1 := st.open_positions.erase current.position
        let stats2 := if cfg.hasStats then
            { stats1 with nodes_explored := stats1.nodes_explored + 1 }
          else stats1
        let aux2 := { aux1 with
          stats := stats2
          events := if cfg.hasObs then
              aux1.events ++
                [mkCallbackArgs openPos1 closed1 st.node_map current.position]
            else aux1.events }
        if current.position = t then
          let path := AStar.reconstruct_path current
          let stats3 := if cfg.hasStats then
              { stats2 with path_length := path.length, path_cost := current.g_score }
            else stats2
          let stf := { st with
            open_set := rest
            closed_set := closed1
            open_positions := openPos1 }
          RunResult.found path stf { aux2 with stats := stats3 }
        else
          let neighbors := aux.grid.get_neighbors current.position
          let ste := { st with
            open_set := rest
            closed_set := closed1
            open_positions := openPos1 }
          let st1 := expandAll neighbors t current ste
          loopA t cfg fuel st1 aux2

/-! ## Projections of a loop outcome -/

def RunResult.auxOf : RunResult → Aux
  | RunResult.found _ _ a => a
  | RunResult.exhausted _ a => a
  | RunResult.fuelOut _ a => a

def RunResult.stOf : RunResult → AlgState
  | RunResult.found _ st _ => st
  | RunResult.exhausted st _ => st
  | RunResult.fuelOut st _ => st

def RunResult.pathOf : RunResult → Option (List Pos)
  | RunResult.found p _ _ => some p
  | RunResult.exhausted _ _ => none
  | RunResult.fuelOut _ _ => none

/-- Outcome kind: 0 = found, 1 = exhausted, 2 = fuel ran out. -/
def RunResult.kindOf : RunResult → ℕ
  | RunResult.found _ _ _ => 0
  | RunResult.exhausted _ _ => 1
  | RunResult.fuelOut _ _ => 2

/-- The walkable cells of a grid (a finite set: walkable positions are
in bounds). -/
def Grid.walkableCells (g : Grid) : Finset Pos :=
  ((Finset.range g.width ×ˢ Finset.range g.height).image
    (fun xy : ℕ × ℕ => ((xy.1 : ℤ), (xy.2 : ℤ)))).filter
    (fun p => g.is_walkable p = true)

/-- Fuel that always suffices (shown below): the loop measure starts at
`1 + 8·|walkable|` and strictly decreases. -/
def fuelBound (g : Grid) : ℕ := 8 * g.walkableCells.card + 2

/-- The observable outcome of `AStar.find_path`: the returned path (or
absence), the stats record after the call, the observer-invocation
trace, the ghost per-iteration stats log, and the grid object after
the call. -/
structure FPResult where
  path : Option (List Pos)
  stats : AlgorithmStats
  events : List (List PyArg)
  statsLog : List AlgorithmStats
  grid : Grid
  completed : Bool
  final : Option AlgState
deriving DecidableEq

/-- `AStar.find_path`.  `stats0` is the state of the caller-supplied
stats record at call time (the code does not reset it). -/
def AStar.find_path (g : Grid) (s t : Pos) (cfg : RunCfg)
    (stats0 : AlgorithmStats) : FPResult :=
  if ¬ (g.is_walkable s = true ∧ g.is_walkable t = true) then
    { path := none, stats := stats0, events := [], statsLog := [], grid := g,
      completed := true, final := none }
  else
    let h_start := AStar.heuristicSq s t
    let start_node := SNode.root (⟨0, 0⟩, h_start) s ⟨0, 0⟩ h_start
    let st0 : AlgState :=
      { open_set := [((⟨0, 0⟩, h_start), 0, start_node)]
        counter := 1
        g_scores := [(s, ⟨0, 0⟩)]
        closed_set := ∅
        node_map := [(s, start_node)]
        open_positions := {s} }
    let aux0 : Aux := { stats := stats0, events := [], statsLog := [], grid := g }
    let res := loopA t cfg (fuelBound g) st0 aux0
    { path := res.pathOf, stats := res.auxOf.stats, events := res.auxOf.events,
      statsLog := res.auxOf.statsLog, grid := res.auxOf.grid,
      completed := decide (res.kindOf ≠ 2), final := some res.stOf }

/-! ## Semantics of the entry order and of `popMin` -/

/-- The (non-strict) lexicographic order on `(f-value, counter)` that
`heapq` minimizes. -/
def keyLE (e1 e2 : Entry) : Prop :=
  fval e1.1 < fval e2.1 ∨ (fval e1.1 = fval e2.1 ∧ e1.2.1 ≤ e2.2.1)

theorem entryLt_iff (e1 e2 : Entry) :
    entryLt e1 e2 = true ↔
      (fval e1.1 < fval e2.1 ∨ (fval e1.1 = fval e2.1 ∧ e1.2.1 < e2.2.1)) := by
  rw [entryLt, Bool.or_eq_true, Bool.and_eq_true, fLt_iff, fLe_iff,
    decide_eq_true_eq]
  constructor
  · rintro (h | ⟨hle, hc⟩)
    · exact Or.inl h
    · by_cases hlt : fval e1.1 < fval e2.1
      · exact Or.inl hlt
      · exact Or.inr ⟨le_antisymm hle (not_lt.mp hlt), hc⟩
  · rintro (h | ⟨heq, hc⟩)
    · exact Or.inl h
    · exact Or.inr ⟨le_of_eq heq, hc⟩

theorem entryLt_eq_false_iff (e1 e2 : Entry) :
    entryLt e1 e2 = false ↔ keyLE e2 e1 := by
  rw [← Bool.not_eq_true, entryLt_iff, keyLE]
  rcases lt_trichotomy (fval e1.1) (fval e2.1) with h | h | h
  · constructor
    · intro hc
      exact absurd (Or.inl h) hc
    · rintro (h' | ⟨h', _⟩) <;> intro <;> linarith
  · constructor
    · intro hc
      push_neg at hc
      exact Or.inr ⟨h.symm, by have := hc.2 h; omega⟩
    · rintro (h' | ⟨h', hc⟩)
      · intro hcon
        linarith
      · rintro (hcon | ⟨_, hcon⟩)
        · linarith
        · omega
  · constructor
    · intro _
      exact Or.inl h
    · intro _
      rintro (hcon | ⟨hcon, _⟩) <;> linarith

theorem keyLE_refl (e : Entry) : keyLE e e := Or.inr ⟨rfl, le_rfl⟩

theorem keyLE_trans {e1 e2 e3 : Entry} (h12 : keyLE e1 e2) (h23 : keyLE e2 e3) :
    keyLE e1 e3 := by
  rcases h12 with h12 | ⟨h12, hc12⟩ <;> rcases h23 with h23 | ⟨h23, hc23⟩
  · exact Or.inl (lt_trans h12 h23)
  · exact Or.inl (by linarith)
  · exact Or.inl (by linarith)
  · exact Or.inr ⟨h12.trans h23, le_trans hc12 hc23⟩

theorem keyLE_of_entryLt {e1 e2 : Entry} (h : entryLt e1 e2 = true) :
    keyLE e1 e2 := by
  rcases (entryLt_iff e1 e2).mp h with h | ⟨heq, hc⟩
  · exact Or.inl h
  · exact Or.inr ⟨heq, le_of_lt hc⟩

theorem selMin_mem (e : Entry) (l : List Entry) : selMin e l ∈ e :: l := by
  induction l generalizing e with
  | nil => simp [selMin]
  | cons x rest ih =>
    rw [selMin, List.foldl_cons]
    by_cases hx : entryLt x e = true
    · rw [if_pos hx]
      have h := ih x
      rw [selMin] at h
      rcases List.mem_cons.mp h with h | h
      · rw [h]
        simp
      · simp [List.mem_cons, h]
    · rw [if_neg hx]
      have h := ih e
      rw [selMin] at h
      rcases List.mem_cons.mp h with h | h
      · rw [h]
        simp
      · simp [List.mem_cons, h]

theorem selMin_le (e : Entry) (l : List Entry) :
    ∀ x ∈ e :: l, keyLE (selMin e l) x := by
  induction l generalizing e with
  | nil =>
    intro x hx
    rw [List.mem_singleton] at hx
    subst hx
    exact keyLE_refl _
  | cons y rest ih =>
    intro x hx
    rw [selMin, List.foldl_cons]
    have hsel : ∀ z ∈ (if entryLt y e then y else e) :: rest,
        keyLE (selMin (if entryLt y e then y else e) rest) z := by
      intro z hz
      have := ih (if entryLt y e then y else e) z hz
      rwa [selMin] at this
    have hhead := hsel _ (List.mem_cons_self _ _)
    have hme : keyLE (selMin (if entryLt y e then y else e) rest) e := by
      by_cases hy : entryLt y e = true
      · simp only [hy, if_true] at hhead ⊢
        exact keyLE_trans hhead (keyLE_of_entryLt hy)
      · simpa [hy] using hhead
    have hmy : keyLE (selMin (if entryLt y e then y else e) rest) y := by
      by_cases hy : entryLt y e = true
      · simpa [hy] using hhead
      · simp only [hy, if_false] at hhead ⊢
        exact keyLE_trans hhead ((entryLt_eq_false_iff y e).mp (by simpa using hy))
    rcases List.mem_cons.mp hx with rfl | hx
    · exact hme
    · rcases List.mem_cons.mp hx with rfl | hx
      · exact hmy
      · exact hsel x (List.mem_cons_of_mem _ hx)

theorem popMin_eq_none_iff (l : List Entry) : popMin l = none ↔ l = [] := by
  cases l <;> simp [popMin]

theorem eraseFirst_perm {l : List Entry} {a : Entry} (h : a ∈ l) :
    l.Perm (a :: eraseFirst l a) := by
  induction l with
  | nil => simp at h
  | cons x xs ih =>
    rw [eraseFirst]
    by_cases hx : x = a
    · subst hx
      rw [if_pos rfl]
    · rw [if_neg hx]
      have ha : a ∈ xs := by
        rcases List.mem_cons.mp h with h | h
        · exact absurd h.symm hx
        · exact h
      have h1 : (x :: xs).Perm (x :: a :: eraseFirst xs a) := (ih ha).cons x
      have h2 : (x :: a :: eraseFirst xs a).Perm (a :: x :: eraseFirst xs a) :=
        List.Perm.swap a x _
      exact h1.trans h2

theorem eraseFirst_subset {l : List Entry} {a x : Entry}
    (h : x ∈ eraseFirst l a) : x ∈ l := by
  induction l with
  | nil => simp [eraseFirst] at h
  | cons y ys ih =>
    rw [eraseFirst] at h
    by_cases hy : y = a
    · rw [if_pos hy] at h
      exact List.mem_cons_of_mem _ h
    · rw [if_neg hy] at h
      rcases List.mem_cons.mp h with h | h
      · exact h ▸ List.mem_cons_self _ _
      · exact List.mem_cons_of_mem _ (ih h)

theorem popMin_spec {l : List Entry} {e : Entry} {rest : List Entry}
    (h : popMin l = some (e, rest)) :
    e ∈ l ∧ rest = eraseFirst l e ∧ ∀ x ∈ l, keyLE e x := by
  cases l with
  | nil => simp [popMin] at h
  | cons a as =>
    rw [popMin] at h
    injection h with h
    injection h with h1 h2
    subst h1
    subst h2
    exact ⟨selMin_mem a as, rfl, selMin_le a as⟩

theorem popMin_perm {l : List Entry} {e : Entry} {rest : List Entry}
    (h : popMin l = some (e, rest)) : l.Perm (e :: rest) := by
  obtain ⟨hmem, hrest, -⟩ := popMin_spec h
  rw [hrest]
  exact eraseFirst_perm hmem

theorem popMin_rest_subset {l : List Entry} {e : Entry} {rest : List Entry}
    (h : popMin l = some (e, rest)) : ∀ x ∈ rest, x ∈ l := by
  obtain ⟨-, hrest, -⟩ := popMin_spec h
  intro x hx
  rw [hrest] at hx
  exact eraseFirst_subset hx

theorem popMin_length {l : List Entry} {e : Entry} {rest : List Entry}
    (h : popMin l = some (e, rest)) : l.length = rest.length + 1 := by
  have := (popMin_perm h).length_eq
  simpa using this

/-! ## Basic grid lemmas -/

theorem is_valid_iff (g : Grid) (p : Pos) :
    g.is_valid p = true ↔
      0 ≤ p.1 ∧ p.1 < (g.width : ℤ) ∧ 0 ≤ p.2 ∧ p.2 < (g.height : ℤ) := by
  rw [Grid.is_valid]
  simp only [Bool.and_eq_true, decide_eq_true_eq]
  tauto

theorem is_valid_of_walkable {g : Grid} {p : Pos}
    (h : g.is_walkable p = true) : g.is_valid p = true := by
  rw [Grid.is_walkable, Bool.and_eq_true] at h
  exact h.1

theorem mem_walkableCells (g : Grid) (q : Pos) :
    q ∈ g.walkableCells ↔ g.is_walkable q = true := by
  rw [Grid.walkableCells, Finset.mem_filter]
  constructor
  · intro h
    exact h.2
  · intro h
    refine ⟨?_, h⟩
    have hv := (is_valid_iff g q).mp (is_valid_of_walkable h)
    rw [Finset.mem_image]
    refine ⟨(q.1.toNat, q.2.toNat), ?_, ?_⟩
    · rw [Finset.mem_product]
      constructor <;> rw [Finset.mem_range] <;> omega
    · have h1 : ((q.1.toNat : ℤ)) = q.1 := Int.toNat_of_nonneg hv.1
      have h2 : ((q.2.toNat : ℤ)) = q.2 := Int.toNat_of_nonneg hv.2.2.1
      cases q
      simp_all

theorem mem_directions_iff (d : ℤ × ℤ) :
    d ∈ directions ↔ d ≠ (0, 0) ∧ d.1.natAbs ≤ 1 ∧ d.2.natAbs ≤ 1 := by
  constructor
  · intro h
    simp only [directions, List.mem_cons, List.not_mem_nil, or_false] at h
    rcases h with rfl | rfl | rfl | rfl | rfl | rfl | rfl | rfl <;> simp
  · rintro ⟨hne, h1, h2⟩
    obtain ⟨d1, d2⟩ := d
    simp only at h1 h2
    have hd1 : d1 = -1 ∨ d1 = 0 ∨ d1 = 1 := by omega
    have hd2 : d2 = -1 ∨ d2 = 0 ∨ d2 = 1 := by omega
    rcases hd1 with rfl | rfl | rfl <;> rcases hd2 with rfl | rfl | rfl <;>
      simp_all [directions]

/-- Membership characterization of `get_neighbors`: exactly the distinct
adjacent walkable positions, diagonals subject to the corner-cutting
rule. -/
theorem mem_get_neighbors_iff (g : Grid) (p q : Pos) :
    q ∈ g.get_neighbors p ↔
      q ≠ p ∧ (q.1 - p.1).natAbs ≤ 1 ∧ (q.2 - p.2).natAbs ≤ 1 ∧
        g.is_walkable q = true ∧
        ((q.1 ≠ p.1 ∧ q.2 ≠ p.2) →
          (g.is_walkable (q.1, p.2) = true ∨ g.is_walkable (p.1, q.2) = true)) := by
  rw [Grid.get_neighbors_eq, List.mem_filterMap]
  constructor
  · rintro ⟨d, hd, hsf⟩
    rw [stepFilter] at hsf
    by_cases hc : (g.is_walkable (p.1 + d.1, p.2 + d.2) && g.diagOk p d) = true
    · rw [if_pos hc] at hsf
      injection hsf with hq
      subst hq
      rw [Bool.and_eq_true] at hc
      obtain ⟨hdir, h1, h2⟩ := (mem_directions_iff d).mp hd
      refine ⟨?_, by simpa using h1, by simpa using h2, hc.1, ?_⟩
      · intro hqp
        apply hdir
        obtain ⟨d1, d2⟩ := d
        obtain ⟨p1, p2⟩ := p
        simp only [Prod.mk.injEq] at hqp ⊢
        omega
      · intro hdiag
        have hd12 : d.1 ≠ 0 ∧ d.2 ≠ 0 := by
          obtain ⟨d1, d2⟩ := d
          obtain ⟨p1, p2⟩ := p
          simp only at hdiag ⊢
          omega
        have := hc.2
        rw [Grid.diagOk, if_pos hd12] at this
        rw [Bool.or_eq_true] at this
        rcases this with h | h
        · left
          simpa using h
        · right
          simpa using h
    · rw [if_neg hc] at hsf
      exact absurd hsf (by simp)
  · rintro ⟨hne, h1, h2, hw, hcorner⟩
    refine ⟨(q.1 - p.1, q.2 - p.2), ?_, ?_⟩
    · rw [mem_directions_iff]
      refine ⟨?_, h1, h2⟩
      intro hc
      apply hne
      obtain ⟨q1, q2⟩ := q
      obtain ⟨p1, p2⟩ := p
      simp only [Prod.mk.injEq] at hc ⊢
      omega
    · rw [stepFilter]
      have hq : (p.1 + (q.1 - p.1), p.2 + (q.2 - p.2)) = q := by
        obtain ⟨q1, q2⟩ := q
        obtain ⟨p1, p2⟩ := p
        simp only [Prod.mk.injEq]
        omega
      rw [hq]
      have hdo : g.diagOk p (q.1 - p.1, q.2 - p.2) = true := by
        rw [Grid.diagOk]
        by_cases hd : ((q.1 - p.1, q.2 - p.2) : ℤ × ℤ).1 ≠ 0 ∧
            ((q.1 - p.1, q.2 - p.2) : ℤ × ℤ).2 ≠ 0
        · rw [if_pos hd]
          simp only at hd
          have := hcorner ⟨by omega, by omega⟩
          have he1 : ((p.1 + (q.1 - p.1), p.2) : Pos) = (q.1, p.2) := by
            rw [Prod.mk.injEq]
            exact ⟨by ring, rfl⟩
          have he2 : ((p.1, p.2 + (q.2 - p.2)) : Pos) = (p.1, q.2) := by
            rw [Prod.mk.injEq]
            exact ⟨rfl, by ring⟩
          rw [he1, he2, Bool.or_eq_true]
          tauto
        · rw [if_neg hd]
      rw [hw, hdo]
      simp

theorem get_neighbors_walkable {g : Grid} {p q : Pos}
    (h : q ∈ g.get_neighbors p) : g.is_walkable q = true :=
  ((mem_get_neighbors_iff g p q).mp h).2.2.2.1

theorem get_neighbors_length_le (g : Grid) (p : Pos) :
    (g.get_neighbors p).length ≤ 8 := by
  rw [Grid.get_neighbors_eq]
  calc (directions.filterMap (stepFilter g p)).length
      ≤ directions.length := List.length_filterMap_le _ _
    _ = 8 := by simp [directions]

/-! ## Paths and their costs -/

/-- Consecutive positions of the list are neighbor steps. -/
def ValidSteps (g : Grid) : List Pos → Prop :=
  List.Chain' (fun p q => q ∈ g.get_neighbors p)

/-- Total cost of a position list: sum of `get_movement_cost` over
consecutive pairs. -/
def pathCost : List Pos → Q2
  | p :: q :: rest => AStar.get_movement_cost p q + pathCost (q :: rest)
  | _ => ⟨0, 0⟩

theorem pathCost_nil : pathCost [] = ⟨0, 0⟩ := rfl

theorem pathCost_single (p : Pos) : pathCost [p] = ⟨0, 0⟩ := rfl

theorem pathCost_cons₂ (p q : Pos) (rest : List Pos) :
    pathCost (p :: q :: rest) =
      AStar.get_movement_cost p q + pathCost (q :: rest) := rfl

theorem addr_z (x : Q2) : x + (⟨0, 0⟩ : Q2) = x := by
  show Q2.add x ⟨0, 0⟩ = x
  obtain ⟨xa, xb⟩ := x
  simp [Q2.add]

theorem z_addr (x : Q2) : (⟨0, 0⟩ : Q2) + x = x := by
  show Q2.add ⟨0, 0⟩ x = x
  obtain ⟨xa, xb⟩ := x
  simp [Q2.add]

theorem addr_assoc (x y z : Q2) : x + y + z = x + (y + z) := by
  show Q2.add (Q2.add x y) z = Q2.add x (Q2.add y z)
  obtain ⟨xa, xb⟩ := x
  obtain ⟨ya, yb⟩ := y
  obtain ⟨za, zb⟩ := z
  simp only [Q2.add, Q2.mk.injEq]
  constructor <;> ring

/-- An obstacle-avoiding path from `s` to `t`: nonempty, starts at `s`,
ends at `t`, every step is a neighbor step, every position walkable. -/
def ValidPath (g : Grid) (s t : Pos) (l : List Pos) : Prop :=
  l ≠ [] ∧ l.head? = some s ∧ l.getLast? = some t ∧ ValidSteps g l ∧
    ∀ p ∈ l, g.is_walkable p = true

/-- `start` and `end` are connected by an obstacle-avoiding path. -/
def Reachable (g : Grid) (s t : Pos) : Prop := ∃ l, ValidPath g s t l

theorem mc_val_pos (p q : Pos) : 0 < (AStar.get_movement_cost p q).val := by
  rw [AStar.get_movement_cost]
  split
  · rw [Q2.val_sqrt2]
    exact Real.sqrt_pos.mpr (by norm_num)
  · rw [Q2.val_one]
    norm_num

theorem val_z : (⟨0, 0⟩ : Q2).val = 0 := by
  simp [Q2.val]

theorem pathCost_val_nonneg (l : List Pos) : 0 ≤ (pathCost l).val := by
  match l with
  | [] =>
    rw [pathCost_nil, val_z]
  | [p] =>
    rw [pathCost_single, val_z]
  | p :: q :: rest =>
    rw [pathCost, Q2.val_add]
    have h1 := mc_val_pos p q
    have h2 := pathCost_val_nonneg (q :: rest)
    linarith

theorem pathCost_append_single {l : List Pos} {p : Pos} (q : Pos)
    (hne : l ≠ []) (hlast : l.getLast? = some p) :
    pathCost (l ++ [q]) = pathCost l + AStar.get_movement_cost p q := by
  match l with
  | [] => exact absurd rfl hne
  | [x] =>
    have hx : x = p := by
      simp only [List.getLast?_singleton, Option.some.injEq] at hlast
      exact hlast
    subst hx
    show pathCost [x, q] = pathCost [x] + AStar.get_movement_cost x q
    rw [pathCost_cons₂, pathCost_single, pathCost_single, addr_z, z_addr]
  | x :: y :: rest =>
    have hlast' : (y :: rest).getLast? = some p := by
      rwa [List.getLast?_cons_cons] at hlast
    have ih := pathCost_append_single q (l := y :: rest) (by simp) hlast'
    show pathCost (x :: ((y :: rest) ++ [q])) = _
    rw [show x :: ((y :: rest) ++ [q]) = x :: y :: (rest ++ [q]) by simp,
      pathCost_cons₂, show y :: (rest ++ [q]) = (y :: rest) ++ [q] by simp, ih,
      pathCost_cons₂, addr_assoc]

theorem validPath_extend {g : Grid} {s p : Pos} {l : List Pos} (q : Pos)
    (hvp : ValidPath g s p l) (hq : q ∈ g.get_neighbors p) :
    ValidPath g s q (l ++ [q]) := by
  obtain ⟨hne, hhead, hlast, hsteps, hwalk⟩ := hvp
  refine ⟨by simp, ?_, ?_, ?_, ?_⟩
  · rwa [List.head?_append_of_ne_nil] <;> assumption
  · simp
  · rw [ValidSteps, List.chain'_append]
    refine ⟨hsteps, by simp [ValidSteps], ?_⟩
    intro x hx y hy
    rw [hlast] at hx
    injection hx with hx
    subst hx
    simp only [List.head?_cons, Option.mem_def, Option.some.injEq] at hy
    subst hy
    exact hq
  · intro r hr
    rcases List.mem_append.mp hr with hr | hr
    · exact hwalk r hr
    · rw [List.mem_singleton] at hr
      subst hr
      exact get_neighbors_walkable hq

/-! ## Node well-formedness -/

/-- The nodes the algorithm constructs: the start node, and child nodes
built from a parent by one neighbor step, with the scores the code
computes. -/
inductive NodeWF (g : Grid) (s t : Pos) : SNode → Prop where
  | root : NodeWF g s t
      (SNode.root ((⟨0, 0⟩ : Q2), AStar.heuristicSq s t) s ⟨0, 0⟩
        (AStar.heuristicSq s t))
  | child {par : SNode} (hpar : NodeWF g s t par) {q : Pos}
      (hq : q ∈ g.get_neighbors par.position) :
      NodeWF g s t (SNode.child
        (par.g_score + AStar.get_movement_cost par.position q,
          AStar.heuristicSq q t)
        q (par.g_score + AStar.get_movement_cost par.position q)
        (AStar.heuristicSq q t) par)

theorem NodeWF.f_eq {g : Grid} {s t : Pos} {n : SNode} (h : NodeWF g s t n) :
    n.f_score = (n.g_score, AStar.heuristicSq n.position t) := by
  cases h <;> rfl

theorem reconstruct_child (f : FS) (q : Pos) (gs : Q2) (hs : ℕ) (par : SNode) :
    AStar.reconstruct_path (SNode.child f q gs hs par) =
      AStar.reconstruct_path par ++ [q] := by
  rw [AStar.reconstruct_path, AStar.reconstruct_path, SNode.walkPositions,
    List.reverse_cons]

/-- A well-formed node records a valid path from the start to its
position whose cost is exactly its g-score. -/
theorem NodeWF.reconstruct_valid {g : Grid} {s t : Pos} {n : SNode}
    (h : NodeWF g s t n) (hs : g.is_walkable s = true) :
    ValidPath g s n.position (AStar.reconstruct_path n) ∧
      pathCost (AStar.reconstruct_path n) = n.g_score := by
  induction h with
  | root =>
    constructor
    · exact ⟨by simp [AStar.reconstruct_path, SNode.walkPositions],
        by simp [AStar.reconstruct_path, SNode.walkPositions, SNode.position],
        by simp [AStar.reconstruct_path, SNode.walkPositions, SNode.position],
        by simp [ValidSteps, AStar.reconstruct_path, SNode.walkPositions],
        by simpa [AStar.reconstruct_path, SNode.walkPositions] using hs⟩
    · rw [AStar.reconstruct_path, SNode.walkPositions]
      rfl
  | child hpar hq ih =>
    obtain ⟨ihv, ihc⟩ := ih
    rw [reconstruct_child]
    constructor
    · exact validPath_extend _ ihv hq
    · have hne : AStar.reconstruct_path _ ≠ [] := ihv.1
      have hlast := ihv.2.2.1
      rw [pathCost_append_single _ hne hlast, ihc]
      rfl

/-! ## Geometry: the heuristic is consistent for this cost model -/

/-- A grid position as a point of the Euclidean plane (modeled as `ℂ`). -/
noncomputable def posC (p : Pos) : ℂ := ⟨(p.1 : ℝ), (p.2 : ℝ)⟩

theorem heuristicSq_cast (p t : Pos) :
    ((AStar.heuristicSq p t : ℕ) : ℝ) =
      ((t.1 - p.1 : ℤ) : ℝ) ^ 2 + ((t.2 - p.2 : ℤ) : ℝ) ^ 2 := by
  rw [AStar.heuristicSq]
  have hnn : (0 : ℤ) ≤ (t.1 - p.1) ^ 2 + (t.2 - p.2) ^ 2 := by positivity
  have h1 : ((((t.1 - p.1) ^ 2 + (t.2 - p.2) ^ 2).toNat : ℤ)) =
      (t.1 - p.1) ^ 2 + (t.2 - p.2) ^ 2 := Int.toNat_of_nonneg hnn
  have h2 : ((((t.1 - p.1) ^ 2 + (t.2 - p.2) ^ 2).toNat : ℕ) : ℝ) =
      (((((t.1 - p.1) ^ 2 + (t.2 - p.2) ^ 2).toNat : ℤ)) : ℝ) := by
    push_cast
    ring
  rw [h2, h1]
  push_cast
  ring

theorem dist_posC (p q : Pos) :
    dist (posC p) (posC q) =
      Real.sqrt (((q.1 - p.1 : ℤ) : ℝ) ^ 2 + ((q.2 - p.2 : ℤ) : ℝ) ^ 2) := by
  rw [Complex.dist_eq, Complex.abs_apply, Complex.normSq_apply]
  congr 1
  rw [posC, posC]
  push_cast
  simp only [Complex.sub_re, Complex.sub_im]
  ring

theorem heuristic_eq_dist (p t : Pos) :
    Real.sqrt ((AStar.heuristicSq p t : ℕ) : ℝ) = dist (posC p) (posC t) := by
  rw [heuristicSq_cast, dist_posC]

/-- On neighbor steps the movement cost is exactly the Euclidean length
of the step. -/
theorem mc_val_eq_dist {g : Grid} {p q : Pos} (h : q ∈ g.get_neighbors p) :
    (AStar.get_movement_cost p q).val = dist (posC p) (posC q) := by
  obtain ⟨hne, h1, h2, -, -⟩ := (mem_get_neighbors_iff g p q).mp h
  rw [dist_posC, AStar.get_movement_cost]
  have hd1 : q.1 - p.1 = -1 ∨ q.1 - p.1 = 0 ∨ q.1 - p.1 = 1 := by omega
  have hd2 : q.2 - p.2 = -1 ∨ q.2 - p.2 = 0 ∨ q.2 - p.2 = 1 := by omega
  have hne' : ¬ (q.1 - p.1 = 0 ∧ q.2 - p.2 = 0) := by
    rintro ⟨ha, hb⟩
    apply hne
    obtain ⟨q1, q2⟩ := q
    obtain ⟨p1, p2⟩ := p
    simp only [Prod.mk.injEq]
    constructor <;> omega
  rcases hd1 with hx | hx | hx <;> rcases hd2 with hy | hy | hy <;>
      rw [hx, hy] <;>
      simp only [Int.natAbs_neg, Int.natAbs_zero, Int.natAbs_one] <;>
      norm_num <;>
      first
        | (rw [Q2.val_sqrt2]; norm_num)
        | (rw [Q2.val_one]; norm_num [Real.sqrt_one])
        | (exact absurd ⟨hx, hy⟩ hne')

/-- Consistency of the Euclidean heuristic: one neighbor step cannot
decrease `h` by more than its movement cost. -/
theorem heuristic_consistent {g : Grid} {p q : Pos} (t : Pos)
    (h : q ∈ g.get_neighbors p) :
    Real.sqrt ((AStar.heuristicSq p t : ℕ) : ℝ) ≤
      (AStar.get_movement_cost p q).val +
        Real.sqrt ((AStar.heuristicSq q t : ℕ) : ℝ) := by
  rw [heuristic_eq_dist, heuristic_eq_dist, mc_val_eq_dist h]
  exact dist_triangle _ _ _

/-- Telescoped consistency along a chain of neighbor steps. -/
theorem chain_h_le {g : Grid} (t : Pos) :
    ∀ l : List Pos, ValidSteps g l → ∀ y z : Pos, l.head? = some y →
      l.getLast? = some z →
      Real.sqrt ((AStar.heuristicSq y t : ℕ) : ℝ) ≤
        (pathCost l).val + Real.sqrt ((AStar.heuristicSq z t : ℕ) : ℝ) := by
  intro l
  induction l with
  | nil =>
    intro _ y z hy _
    simp at hy
  | cons x rest ih =>
    intro hsteps y z hy hz
    have hxy : x = y := by
      rw [List.head?_cons, Option.some.injEq] at hy
      exact hy
    subst hxy
    match rest with
    | [] =>
      have hxz : x = z := by
        rw [List.getLast?_singleton, Option.some.injEq] at hz
        exact hz
      subst hxz
      rw [pathCost_single, val_z]
      linarith [Real.sqrt_nonneg ((AStar.heuristicSq x t : ℕ) : ℝ)]
    | q :: rest2 =>
      have hchain := hsteps
      rw [ValidSteps, List.chain'_cons] at hchain
      obtain ⟨hstep, hchain2⟩ := hchain
      have hlast2 : (q :: rest2).getLast? = some z := by
        rwa [List.getLast?_cons_cons] at hz
      have ihq := ih hchain2 q z (by simp) hlast2
      have hcons := heuristic_consistent t hstep
      rw [pathCost_cons₂, Q2.val_add]
      linarith

/-! ## Association-list lemmas -/

theorem lookupA_updateA_self {α : Type} (l : List (Pos × α)) (p : Pos) (v : α) :
    lookupA (updateA l p v) p = some v := by
  induction l with
  | nil => simp [updateA, lookupA]
  | cons kv rest ih =>
    obtain ⟨k, w⟩ := kv
    rw [updateA]
    by_cases hk : k = p
    · rw [if_pos hk, lookupA, if_pos hk]
    · rw [if_neg hk, lookupA, if_neg hk, ih]

theorem lookupA_updateA_ne {α : Type} (l : List (Pos × α)) {p p' : Pos} (v : α)
    (h : p' ≠ p) : lookupA (updateA l p v) p' = lookupA l p' := by
  induction l with
  | nil =>
    rw [updateA]
    show (if p = p' then some v else lookupA [] p') = lookupA [] p'
    rw [if_neg (fun hc => h hc.symm)]
  | cons kv rest ih =>
    obtain ⟨k, w⟩ := kv
    rw [updateA]
    by_cases hk : k = p
    · subst hk
      rw [if_pos rfl, lookupA, lookupA, if_neg (fun hc => h hc.symm),
        if_neg (fun hc => h hc.symm)]
    · rw [if_neg hk, lookupA, lookupA]
      by_cases hk' : k = p'
      · rw [if_pos hk', if_pos hk']
      · rw [if_neg hk', if_neg hk', ih]

/-- Loop measure: the frontier size plus eight times the number of
walkable cells not yet closed.  It strictly decreases each iteration. -/
def measureOf (g : Grid) (st : AlgState) : ℕ :=
  st.open_set.length + 8 * (g.walkableCells \ st.closed_set).card

/-- The grid object is never written by the loop. -/
theorem loopA_grid (t : Pos) (cfg : RunCfg) :
    ∀ fuel st aux, ((loopA t cfg fuel st aux).auxOf).grid = aux.grid := by
  intro fuel
  induction fuel with
  | zero => intro st aux; rfl
  | succ fuel ih =>
    intro st aux
    rw [loopA]
    cases hpop : popMin st.open_set with
    | none => rfl
    | some pr =>
      obtain ⟨e, rest⟩ := pr
      dsimp only
      split
      · rw [ih]
      · split
        · rfl
        · rw [ih]

/-- The control flow, returned path and final algorithm state of the
loop do not depend on which optional arguments were supplied, nor on the
stats/event data accumulated so far. -/
theorem loopA_cfg_indep (t : Pos) (cfg cfg2 : RunCfg) :
    ∀ fuel st aux aux2, aux.grid = aux2.grid →
      (loopA t cfg fuel st aux).kindOf = (loopA t cfg2 fuel st aux2).kindOf ∧
      (loopA t cfg fuel st aux).pathOf = (loopA t cfg2 fuel st aux2).pathOf ∧
      (loopA t cfg fuel st aux).stOf = (loopA t cfg2 fuel st aux2).stOf := by
  intro fuel
  induction fuel with
  | zero =>
    intro st aux aux2 hg
    exact ⟨rfl, rfl, rfl⟩
  | succ fuel ih =>
    intro st aux aux2 hg
    rw [loopA, loopA]
    cases hpop : popMin st.open_set with
    | none => exact ⟨rfl, rfl, rfl⟩
    | some pr =>
      obtain ⟨e, rest⟩ := pr
      dsimp only
      rw [hg]
      by_cases hcl : e.2.2.position ∈ st.closed_set
      · simp only [if_pos hcl]
        exact ih _ _ _ rfl
      · simp only [if_neg hcl]
        by_cases hgoal : e.2.2.position = t
        · simp only [if_pos hgoal]
          exact ⟨rfl, rfl, rfl⟩
        · simp only [if_neg hgoal]
          exact ih _ _ _ rfl

/-- The stats record and the per-iteration stats log computed by the
loop depend only on the stats flag, the incoming stats record and the
state; in particular not on the observer flag. -/
theorem loopA_stats_indep (t : Pos) (cfg cfg2 : RunCfg)
    (hhs : cfg.hasStats = cfg2.hasStats) :
    ∀ fuel st aux aux2, aux.grid = aux2.grid → aux.stats = aux2.stats →
      aux.statsLog = aux2.statsLog →
      (loopA t cfg fuel st aux).auxOf.stats =
          (loopA t cfg2 fuel st aux2).auxOf.stats ∧
        (loopA t cfg fuel st aux).auxOf.statsLog =
          (loopA t cfg2 fuel st aux2).auxOf.statsLog := by
  intro fuel
  induction fuel with
  | zero =>
    intro st aux aux2 hg hstat hlog
    exact ⟨hstat, hlog⟩
  | succ fuel ih =>
    intro st aux aux2 hg hstat hlog
    rw [loopA, loopA]
    cases hpop : popMin st.open_set with
    | none => exact ⟨hstat, hlog⟩
    | some pr =>
      obtain ⟨e, rest⟩ := pr
      dsimp only
      rw [hhs, hstat, hlog, hg]
      by_cases hcl : e.2.2.position ∈ st.closed_set
      · simp only [if_pos hcl]
        exact ih _ _ _ rfl rfl rfl
      · simp only [if_neg hcl]
        by_cases hgoal : e.2.2.position = t
        · simp only [if_pos hgoal]
          exact ⟨rfl, rfl⟩
        · simp only [if_neg hgoal]
          exact ih _ _ _ rfl rfl rfl

/-! ## Claims C3, C4, C6, C8, C10 -/

/-- C3: for every grid and position, `get_neighbors` returns exactly the
adjacent walkable positions in the fixed cardinal-first-then-diagonal
order, where a diagonal neighbor is included only if at least one of the
two orthogonal cells beside the step is walkable — even a walkable
diagonal cell is excluded when both orthogonal cells are blocked. -/
theorem claim_C3_get_neighbors (g : Grid) (p : Pos) :
    (∀ q : Pos, q ∈ g.get_neighbors p ↔
      q ≠ p ∧ (q.1 - p.1).natAbs ≤ 1 ∧ (q.2 - p.2).natAbs ≤ 1 ∧
        g.is_walkable q = true ∧
        ((q.1 ≠ p.1 ∧ q.2 ≠ p.2) →
          (g.is_walkable (q.1, p.2) = true ∨ g.is_walkable (p.1, q.2) = true))) ∧
    g.get_neighbors p =
      ([(0, -1), (0, 1), (-1, 0), (1, 0)] : List (ℤ × ℤ)).filterMap
          (stepFilter g p) ++
        ([(-1, -1), (-1, 1), (1, -1), (1, 1)] : List (ℤ × ℤ)).filterMap
          (stepFilter g p) ∧
    (∀ q ∈ ([(0, -1), (0, 1), (-1, 0), (1, 0)] : List (ℤ × ℤ)).filterMap
        (stepFilter g p), q.1 = p.1 ∨ q.2 = p.2) ∧
    (∀ q ∈ ([(-1, -1), (-1, 1), (1, -1), (1, 1)] : List (ℤ × ℤ)).filterMap
        (stepFilter g p), q.1 ≠ p.1 ∧ q.2 ≠ p.2) := by
  refine ⟨fun q => mem_get_neighbors_iff g p q, ?_, ?_, ?_⟩
  · rw [Grid.get_neighbors_eq,
      show directions =
        ([(0, -1), (0, 1), (-1, 0), (1, 0)] : List (ℤ × ℤ)) ++
          [(-1, -1), (-1, 1), (1, -1), (1, 1)] from rfl,
      List.filterMap_append]
  · intro q hq
    rw [List.mem_filterMap] at hq
    obtain ⟨d, hd, hsf⟩ := hq
    rw [stepFilter] at hsf
    split at hsf
    · injection hsf with hsf
      subst hsf
      simp only [List.mem_cons, List.not_mem_nil, or_false] at hd
      rcases hd with rfl | rfl | rfl | rfl <;> simp
    · exact absurd hsf (by simp)
  · intro q hq
    rw [List.mem_filterMap] at hq
    obtain ⟨d, hd, hsf⟩ := hq
    rw [stepFilter] at hsf
    split at hsf
    · injection hsf with hsf
      subst hsf
      simp only [List.mem_cons, List.not_mem_nil, or_false] at hd
      rcases hd with rfl | rfl | rfl | rfl <;>
        constructor <;> simp <;> omega
    · exact absurd hsf (by simp)

/-- C4: each pop from the frontier yields an entry whose f-score is
minimum among the frontier entries, with ties among equal f-scores
broken by insertion order (the first-inserted entry, i.e. the one with
the least counter, wins); consequently the returned path is a
deterministic function of `(grid, start, end)`, unaffected by the
optional observer/stats arguments. -/
theorem claim_C4_pop_min_deterministic :
    (∀ (l : List Entry) (e : Entry) (rest : List Entry),
      (l.map (fun x => x.2.1)).Nodup → popMin l = some (e, rest) →
        e ∈ l ∧ l.Perm (e :: rest) ∧
          ∀ x ∈ l, x ≠ e →
            fval e.1 < fval x.1 ∨ (fval e.1 = fval x.1 ∧ e.2.1 < x.2.1)) ∧
    (∀ (g : Grid) (s t : Pos) (cfg cfg2 : RunCfg)
        (stats0 stats02 : AlgorithmStats),
      (AStar.find_path g s t cfg stats0).path =
        (AStar.find_path g s t cfg2 stats02).path) := by
  constructor
  · intro l e rest hnd hpop
    obtain ⟨hmem, -, hmin⟩ := popMin_spec hpop
    refine ⟨hmem, popMin_perm hpop, ?_⟩
    intro x hx hxe
    rcases hmin x hx with h | ⟨heq, hle⟩
    · exact Or.inl h
    · refine Or.inr ⟨heq, lt_of_le_of_ne hle ?_⟩
      intro hc
      exact hxe (List.inj_on_of_nodup_map hnd hx hmem hc.symm)
  · intro g s t cfg cfg2 stats0 stats02
    rw [AStar.find_path, AStar.find_path]
    by_cases hc : ¬ (g.is_walkable s = true ∧ g.is_walkable t = true)
    · rw [if_pos hc, if_pos hc]
    · rw [if_neg hc, if_neg hc]
      dsimp only
      exact (loopA_cfg_indep t cfg cfg2 (fuelBound g) _
        { stats := stats0, events := [], statsLog := [], grid := g }
        { stats := stats02, events := [], statsLog := [], grid := g } rfl).2.1

/-- C6: if start or end is not walkable (including out of bounds),
`find_path` returns the no-path result immediately: no frontier state is
created, the supplied stats record is returned untouched, and no
observer call happens. -/
theorem claim_C6_invalid_endpoints (g : Grid) (s t : Pos) (cfg : RunCfg)
    (stats0 : AlgorithmStats)
    (h : ¬ (g.is_walkable s = true ∧ g.is_walkable t = true)) :
    AStar.find_path g s t cfg stats0 =
      { path := none, stats := stats0, events := [], statsLog := [],
        grid := g, completed := true, final := none } := by
  rw [AStar.find_path, if_pos h]

/-- Witness for C6 at a concrete input: a 2×1 grid whose start cell is
an obstacle. -/
theorem claim_C6_invalid_endpoints_witness :
    ¬ (((Grid.make 2 1).set_cell (0, 0) CellType.OBSTACLE).is_walkable
          ((0 : ℤ), (0 : ℤ)) = true ∧
        ((Grid.make 2 1).set_cell (0, 0) CellType.OBSTACLE).is_walkable
          ((1 : ℤ), (0 : ℤ)) = true) ∧
      AStar.find_path ((Grid.make 2 1).set_cell (0, 0) CellType.OBSTACLE)
          ((0 : ℤ), (0 : ℤ)) ((1 : ℤ), (0 : ℤ)) ⟨true, true⟩ {} =
        { path := none, stats := {}, events := [], statsLog := [],
          grid := (Grid.make 2 1).set_cell (0, 0) CellType.OBSTACLE,
          completed := true, final := none } :=
  ⟨by decide, claim_C6_invalid_endpoints _ _ _ _ _ (by decide)⟩

/-- C8: supplying or omitting the observer does not change the returned
path, the stats record, or the per-iteration stats log. -/
theorem claim_C8_observer_transparent (g : Grid) (s t : Pos) (hs : Bool)
    (stats0 : AlgorithmStats) :
    (AStar.find_path g s t ⟨true, hs⟩ stats0).path =
        (AStar.find_path g s t ⟨false, hs⟩ stats0).path ∧
      (AStar.find_path g s t ⟨true, hs⟩ stats0).stats =
        (AStar.find_path g s t ⟨false, hs⟩ stats0).stats ∧
      (AStar.find_path g s t ⟨true, hs⟩ stats0).statsLog =
        (AStar.find_path g s t ⟨false, hs⟩ stats0).statsLog := by
  rw [AStar.find_path, AStar.find_path]
  by_cases hc : ¬ (g.is_walkable s = true ∧ g.is_walkable t = true)
  · rw [if_pos hc, if_pos hc]
    exact ⟨rfl, rfl, rfl⟩
  · rw [if_neg hc, if_neg hc]
    dsimp only
    refine ⟨(loopA_cfg_indep t ⟨true, hs⟩ ⟨false, hs⟩ (fuelBound g)
        _ _ _ rfl).2.1,
      (loopA_stats_indep t ⟨true, hs⟩ ⟨false, hs⟩ rfl (fuelBound g)
        _ _ _ rfl rfl rfl).1,
      (loopA_stats_indep t ⟨true, hs⟩ ⟨false, hs⟩ rfl (fuelBound g)
        _ _ _ rfl rfl rfl).2⟩

/-- C10: `find_path` never mutates the grid it is given: the grid object
threaded through the run is returned unchanged, whether the result is a
path or absence. -/
theorem claim_C10_grid_unchanged (g : Grid) (s t : Pos) (cfg : RunCfg)
    (stats0 : AlgorithmStats) :
    (AStar.find_path g s t cfg stats0).grid = g := by
  rw [AStar.find_path]
  split
  · rfl
  · dsimp only
    rw [loopA_grid]

/-- Witness for C3 at a concrete input: on an empty 2×2 grid, `(1, 1)`
is a (diagonal, walkable) neighbor of `(0, 0)`. -/
theorem claim_C3_get_neighbors_witness :
    (((1 : ℤ), (1 : ℤ)) ≠ ((0 : ℤ), (0 : ℤ)) ∧
        ((1 : ℤ) - 0).natAbs ≤ 1 ∧ ((1 : ℤ) - 0).natAbs ≤ 1 ∧
        (Grid.make 2 2).is_walkable (1, 1) = true ∧
        (((1 : ℤ) ≠ (0 : ℤ) ∧ (1 : ℤ) ≠ (0 : ℤ)) →
          ((Grid.make 2 2).is_walkable ((1 : ℤ), (0 : ℤ)) = true ∨
            (Grid.make 2 2).is_walkable ((0 : ℤ), (1 : ℤ)) = true))) ∧
      ((1 : ℤ), (1 : ℤ)) ∈ (Grid.make 2 2).get_neighbors (0, 0) :=
  ⟨by decide,
    ((claim_C3_get_neighbors (Grid.make 2 2) (0, 0)).1 (1, 1)).mpr (by decide)⟩

/-- A throwaway concrete node used by concrete frontier examples. -/
def node0 : SNode := SNode.root ((⟨0, 0⟩ : Q2), 0) ((0 : ℤ), (0 : ℤ)) ⟨0, 0⟩ 0

/-- Witness for C4 at a concrete frontier: of two entries with equal
real f-value `2 = 0 + √4`, the first-inserted (counter 0) wins. -/
theorem claim_C4_pop_min_deterministic_witness :
    (([(((⟨2, 0⟩ : Q2), 0), 0, node0), (((⟨0, 0⟩ : Q2), 4), 1, node0)] :
        List Entry).map (fun x => x.2.1)).Nodup ∧
      popMin [(((⟨2, 0⟩ : Q2), 0), 0, node0), (((⟨0, 0⟩ : Q2), 4), 1, node0)] =
        some (((((⟨2, 0⟩ : Q2), 0), 0, node0)),
          [(((⟨0, 0⟩ : Q2), 4), 1, node0)]) ∧
      ((((⟨2, 0⟩ : Q2), 0), 0, node0) : Entry) ∈
          ([(((⟨2, 0⟩ : Q2), 0), 0, node0), (((⟨0, 0⟩ : Q2), 4), 1, node0)] :
            List Entry) ∧
        ([(((⟨2, 0⟩ : Q2), 0), 0, node0), (((⟨0, 0⟩ : Q2), 4), 1, node0)] :
          List Entry).Perm
          (((((⟨2, 0⟩ : Q2), 0), 0, node0)) ::
            [(((⟨0, 0⟩ : Q2), 4), 1, node0)]) ∧
        ∀ x ∈ ([(((⟨2, 0⟩ : Q2), 0), 0, node0),
            (((⟨0, 0⟩ : Q2), 4), 1, node0)] : List Entry),
          x ≠ (((⟨2, 0⟩ : Q2), 0), 0, node0) →
            fval ((⟨2, 0⟩ : Q2), 0) < fval x.1 ∨
              (fval ((⟨2, 0⟩ : Q2), 0) = fval x.1 ∧ 0 < x.2.1) :=
  ⟨by decide, by decide,
    claim_C4_pop_min_deterministic.1 _ _ _ (by decide) (by decide)⟩

/-- C5: for every walkable start `s`, `find_path g s s` returns the
one-element path `[s]`, records path cost 0 (the goal node's g-score)
and path length 1 in the stats when supplied, and expands no neighbors:
the final frontier is empty and the push counter is still 1 (only the
start node was ever pushed), because the goal check fires before
expansion. -/
theorem claim_C5_start_eq_end (g : Grid) (s : Pos) (cfg : RunCfg)
    (stats0 : AlgorithmStats) (hs : g.is_walkable s = true) :
    (AStar.find_path g s s cfg stats0).path = some [s] ∧
      (AStar.find_path g s s cfg stats0).final =
        some { open_set := [], counter := 1, g_scores := [(s, ⟨0, 0⟩)],
               closed_set := {s}, node_map := [(s, SNode.root (⟨0, 0⟩,
                 AStar.heuristicSq s s) s ⟨0, 0⟩ (AStar.heuristicSq s s))],
               open_positions := (({s} : Finset Pos).erase s) } ∧
      (cfg.hasStats = true →
        (AStar.find_path g s s cfg stats0).stats =
          { nodes_explored := stats0.nodes_explored + 1
            nodes_in_open := 1
            max_open_size := max stats0.max_open_size 1
            path_length := 1
            path_cost := ⟨0, 0⟩
            iterations := stats0.iterations + 1 }) := by
  rw [AStar.find_path, if_neg (by simp [hs])]
  dsimp only
  have hfb : fuelBound g = (8 * g.walkableCells.card + 1) + 1 := rfl
  rw [hfb, loopA]
  have hpop : popMin [((((⟨0, 0⟩ : Q2), AStar.heuristicSq s s)), 0,
      SNode.root (⟨0, 0⟩, AStar.heuristicSq s s) s ⟨0, 0⟩
        (AStar.heuristicSq s s))] =
      some (((((⟨0, 0⟩ : Q2), AStar.heuristicSq s s)), 0,
        SNode.root (⟨0, 0⟩, AStar.heuristicSq s s) s ⟨0, 0⟩
          (AStar.heuristicSq s s)), []) := by
    rw [popMin]
    simp [selMin, eraseFirst]
  rw [hpop]
  dsimp only
  rw [if_neg (by simp [SNode.position]), if_pos (by rfl)]
  refine ⟨rfl, ?_, ?_⟩
  · rfl
  · intro hhs
    rw [hhs]
    rfl

/-- Witness for C5 at a concrete input: the 1×1 grid with
start = end = (0, 0). -/
theorem claim_C5_start_eq_end_witness :
    (Grid.make 1 1).is_walkable ((0 : ℤ), (0 : ℤ)) = true ∧
      (AStar.find_path (Grid.make 1 1) (0, 0) (0, 0) ⟨true, true⟩ {}).path =
        some [((0 : ℤ), (0 : ℤ))] :=
  ⟨by decide,
    (claim_C5_start_eq_end (Grid.make 1 1) (0, 0) ⟨true, true⟩ {}
      (by decide)).1⟩

/-! ## Effect of the expansion fold on the state -/

theorem expandOne_closed_eq (t : Pos) (cur : SNode) (st : AlgState)
    (npos : Pos) : (expandOne t cur st npos).closed_set = st.closed_set := by
  rw [expandOne]
  split
  · rfl
  · dsimp only
    split
    · rfl
    · rfl

theorem expandOne_open_sub (t : Pos) (cur : SNode) (st : AlgState)
    (npos : Pos) :
    ∀ e ∈ (expandOne t cur st npos).open_set,
      e ∈ st.open_set ∨ e.2.2.position = npos := by
  rw [expandOne]
  split
  · intro e he
    exact Or.inl he
  · dsimp only
    split
    · intro e he
      exact Or.inl he
    · intro e he
      dsimp only at he
      rcases List.mem_append.mp he with h | h
      · exact Or.inl h
      · rw [List.mem_singleton] at h
        subst h
        exact Or.inr rfl

theorem expandOne_open_len (t : Pos) (cur : SNode) (st : AlgState)
    (npos : Pos) :
    (expandOne t cur st npos).open_set.length ≤ st.open_set.length + 1 := by
  rw [expandOne]
  split
  · omega
  · dsimp only
    split
    · omega
    · simp

theorem expandAll_closed_eq (ns : List Pos) (t : Pos) (cur : SNode)
    (st : AlgState) : (expandAll ns t cur st).closed_set = st.closed_set := by
  induction ns generalizing st with
  | nil => rfl
  | cons q qs ih =>
    simp only [expandAll] at ih ⊢
    rw [List.foldl_cons, ih, expandOne_closed_eq]

theorem expandAll_open_sub (ns : List Pos) (t : Pos) (cur : SNode)
    (st : AlgState) :
    ∀ e ∈ (expandAll ns t cur st).open_set,
      e ∈ st.open_set ∨ e.2.2.position ∈ ns := by
  induction ns generalizing st with
  | nil =>
    intro e he
    exact Or.inl he
  | cons q qs ih =>
    intro e he
    simp only [expandAll] at ih he
    rw [List.foldl_cons] at he
    rcases ih _ e he with h | h
    · rcases expandOne_open_sub t cur st q e h with h | h
      · exact Or.inl h
      · exact Or.inr (by rw [h]; exact List.mem_cons_self _ _)
    · exact Or.inr (List.mem_cons_of_mem _ h)

theorem expandAll_open_len (ns : List Pos) (t : Pos) (cur : SNode)
    (st : AlgState) :
    (expandAll ns t cur st).open_set.length ≤
      st.open_set.length + ns.length := by
  induction ns generalizing st with
  | nil => simp [expandAll]
  | cons q qs ih =>
    simp only [expandAll] at ih ⊢
    rw [List.foldl_cons]
    calc ((qs.foldl (expandOne t cur) (expandOne t cur st q)).open_set).length
        ≤ (expandOne t cur st q).open_set.length + qs.length := ih _
      _ ≤ st.open_set.length + 1 + qs.length := by
          have := expandOne_open_len t cur st q
          omega
      _ = st.open_set.length + (q :: qs).length := by simp; omega

/-! ## Walkability invariant and termination -/

/-- Positions held in the frontier and the closed set are walkable. -/
structure PosInv (g : Grid) (st : AlgState) : Prop where
  openWalk : ∀ e ∈ st.open_set, g.is_walkable e.2.2.position = true
  closedWalk : ∀ p ∈ st.closed_set, g.is_walkable p = true

theorem posInv_expandAll {g : Grid} {st : AlgState} (ns : List Pos) (t : Pos)
    (cur : SNode) (hns : ∀ q ∈ ns, g.is_walkable q = true)
    (hinv : PosInv g st) : PosInv g (expandAll ns t cur st) := by
  constructor
  · intro e he
    rcases expandAll_open_sub ns t cur st e he with h | h
    · exact hinv.openWalk e h
    · exact hns _ h
  · intro p hp
    rw [expandAll_closed_eq] at hp
    exact hinv.closedWalk p hp

theorem closed_card_le {g : Grid} {st : AlgState} (hinv : PosInv g st) :
    st.closed_set.card ≤ g.walkableCells.card := by
  apply Finset.card_le_card
  intro p hp
  exact (mem_walkableCells g p).mpr (hinv.closedWalk p hp)

/-- The measure strictly decreases across a non-stale expansion step. -/
theorem measure_expand_lt {g : Grid} {st : AlgState} {e : Entry}
    {rest : List Entry} (hpop : popMin st.open_set = some (e, rest))
    (hinv : PosInv g st) (hnotcl : e.2.2.position ∉ st.closed_set)
    (ns : List Pos) (hns : ns.length ≤ 8) (t : Pos) :
    measureOf g (expandAll ns t e.2.2
        { st with
          open_set := rest
          closed_set := insert e.2.2.position st.closed_set
          open_positions := st.open_positions.erase e.2.2.position }) <
      measureOf g st := by
  have hlen := popMin_length hpop
  have hmem : e.2.2.position ∈ g.walkableCells :=
    (mem_walkableCells g _).mpr
      (hinv.openWalk e (popMin_spec hpop).1)
  have hopenlen := expandAll_open_len ns t e.2.2
    { st with
      open_set := rest
      closed_set := insert e.2.2.position st.closed_set
      open_positions := st.open_positions.erase e.2.2.position }
  have hclosed := expandAll_closed_eq ns t e.2.2
    { st with
      open_set := rest
      closed_set := insert e.2.2.position st.closed_set
      open_positions := st.open_positions.erase e.2.2.position }
  rw [measureOf, measureOf, hclosed]
  have hsdiff : g.walkableCells \ insert e.2.2.position st.closed_set =
      (g.walkableCells \ st.closed_set).erase e.2.2.position := by
    rw [Finset.sdiff_insert]
  have hin : e.2.2.position ∈ g.walkableCells \ st.closed_set :=
    Finset.mem_sdiff.mpr ⟨hmem, hnotcl⟩
  have hcard : (g.walkableCells \ insert e.2.2.position st.closed_set).card =
      (g.walkableCells \ st.closed_set).card - 1 := by
    rw [hsdiff, Finset.card_erase_of_mem hin]
  have hpos : 1 ≤ (g.walkableCells \ st.closed_set).card :=
    Finset.card_pos.mpr ⟨_, hin⟩
  rw [hcard]
  dsimp only at hopenlen
  omega

/-- Within the fuel bound the loop never runs out of fuel. -/
theorem loopA_no_fuelOut (g : Grid) (t : Pos) (cfg : RunCfg) :
    ∀ fuel st aux, aux.grid = g → PosInv g st → measureOf g st < fuel →
      (loopA t cfg fuel st aux).kindOf ≠ 2 := by
  intro fuel
  induction fuel with
  | zero =>
    intro st aux hg hinv hm
    omega
  | succ fuel ih =>
    intro st aux hg hinv hm
    rw [loopA]
    cases hpop : popMin st.open_set with
    | none => simp [RunResult.kindOf]
    | some pr =>
      obtain ⟨e, rest⟩ := pr
      dsimp only
      have hlen := popMin_length hpop
      by_cases hcl : e.2.2.position ∈ st.closed_set
      · simp only [if_pos hcl]
        apply ih
        · exact hg
        · exact ⟨fun x hx => hinv.openWalk x (popMin_rest_subset hpop x hx),
            hinv.closedWalk⟩
        · rw [measureOf] at hm ⊢
          dsimp only
          omega
      · simp only [if_neg hcl]
        by_cases hgoal : e.2.2.position = t
        · simp only [if_pos hgoal]
          simp [RunResult.kindOf]
        · simp only [if_neg hgoal]
          apply ih
          · exact hg
          · apply posInv_expandAll
            · intro q hq
              rw [hg] at hq
              exact get_neighbors_walkable hq
            · exact ⟨fun x hx => hinv.openWalk x (popMin_rest_subset hpop x hx),
                fun p hp => by
                  rcases Finset.mem_insert.mp hp with h | h
                  · subst h
                    exact hinv.openWalk e (popMin_spec hpop).1
                  · exact hinv.closedWalk p h⟩
          · have := measure_expand_lt hpop hinv hcl
              (aux.grid.get_neighbors e.2.2.position)
              (by rw [hg]; exact get_neighbors_length_le g _) t
            omega

/-! ## Reachability invariant and claim C2 -/

theorem validPath_refl {g : Grid} {s : Pos} (hs : g.is_walkable s = true) :
    ValidPath g s s [s] :=
  ⟨by simp, by simp, by simp, by simp [ValidSteps], by simpa using hs⟩

theorem reachable_extend {g : Grid} {s p q : Pos} (h : Reachable g s p)
    (hq : q ∈ g.get_neighbors p) : Reachable g s q := by
  obtain ⟨l, hvp⟩ := h
  exact ⟨l ++ [q], validPath_extend q hvp hq⟩

/-- If the loop finds the goal, the goal is reachable from the start
(assuming every frontier position is). -/
theorem loopA_found_reachable (g : Grid) (s t : Pos) (cfg : RunCfg) :
    ∀ fuel st aux, aux.grid = g →
      (∀ e ∈ st.open_set, Reachable g s e.2.2.position) →
      (loopA t cfg fuel st aux).kindOf = 0 → Reachable g s t := by
  intro fuel
  induction fuel with
  | zero =>
    intro st aux hg hre hk
    exact absurd hk (by simp [loopA, RunResult.kindOf])
  | succ fuel ih =>
    intro st aux hg hre hk
    rw [loopA] at hk
    cases hpop : popMin st.open_set with
    | none =>
      rw [hpop] at hk
      exact absurd hk (by simp [RunResult.kindOf])
    | some pr =>
      obtain ⟨e, rest⟩ := pr
      rw [hpop] at hk
      dsimp only at hk
      by_cases hcl : e.2.2.position ∈ st.closed_set
      · rw [if_pos hcl] at hk
        refine ih _ _ ?_ ?_ hk
        · exact hg
        · exact fun x hx => hre x (popMin_rest_subset hpop x hx)
      · rw [if_neg hcl] at hk
        by_cases hgoal : e.2.2.position = t
        · exact hgoal ▸ hre e (popMin_spec hpop).1
        · rw [if_neg hgoal] at hk
          refine ih _ _ ?_ ?_ hk
          · exact hg
          · intro x hx
            rcases expandAll_open_sub _ _ _ _ x hx with h | h
            · exact hre x (popMin_rest_subset hpop x h)
            · rw [hg] at h
              exact reachable_extend (hre e (popMin_spec hpop).1) h

/-- When the goal is unreachable, an adequately fueled loop run halts in
the exhausted outcome with no path. -/
theorem loop_unreachable (g : Grid) (s t : Pos) (cfg : RunCfg) (fuel : ℕ)
    (st : AlgState) (aux : Aux) (hg : aux.grid = g) (hpos : PosInv g st)
    (hm : measureOf g st < fuel)
    (hre : ∀ e ∈ st.open_set, Reachable g s e.2.2.position)
    (hnr : ¬ Reachable g s t) :
    decide ((loopA t cfg fuel st aux).kindOf ≠ 2) = true ∧
      (loopA t cfg fuel st aux).pathOf = none := by
  have h2 := loopA_no_fuelOut g t cfg fuel st aux hg hpos hm
  have h0 := loopA_found_reachable g s t cfg fuel st aux hg hre
  cases hres : loopA t cfg fuel st aux with
  | found p st2 aux2 =>
    exact absurd (h0 (by rw [hres]; rfl)) hnr
  | exhausted st2 aux2 =>
    exact ⟨by simp [RunResult.kindOf], rfl⟩
  | fuelOut st2 aux2 =>
    rw [hres] at h2
    exact absurd rfl h2

/-- C2: on a finite grid with walkable start and end that are not
connected by any obstacle-avoiding path, the search loop halts within
its fuel bound (the frontier empties) and `find_path` returns the
explicit absence value, never an empty or partial path. -/
theorem claim_C2_unreachable_halts (g : Grid) (s t : Pos) (cfg : RunCfg)
    (stats0 : AlgorithmStats) (hs : g.is_walkable s = true)
    (ht : g.is_walkable t = true) (hnr : ¬ Reachable g s t) :
    (AStar.find_path g s t cfg stats0).completed = true ∧
      (AStar.find_path g s t cfg stats0).path = none := by
  rw [AStar.find_path, if_neg (by simp [hs, ht])]
  dsimp only
  apply loop_unreachable g s t cfg (fuelBound g) _ _ rfl
  · constructor
    · intro e he
      rw [List.mem_singleton] at he
      subst he
      simpa [SNode.position] using hs
    · intro p hp
      simp at hp
  · rw [measureOf, fuelBound]
    simp only [List.length_singleton, Finset.sdiff_empty]
    omega
  · intro e he
    rw [List.mem_singleton] at he
    subst he
    exact ⟨[s], validPath_refl hs⟩
  · exact hnr

/-- Witness for C2 at a concrete input: a 3×1 corridor with a wall in
the middle; `(2, 0)` is walkable but unreachable from `(0, 0)`. -/
theorem claim_C2_unreachable_halts_witness :
    ((Grid.make 3 1).set_cell (1, 0) CellType.OBSTACLE).is_walkable
        ((0 : ℤ), (0 : ℤ)) = true ∧
      ((Grid.make 3 1).set_cell (1, 0) CellType.OBSTACLE).is_walkable
        ((2 : ℤ), (0 : ℤ)) = true ∧
      ¬ Reachable ((Grid.make 3 1).set_cell (1, 0) CellType.OBSTACLE)
        (0, 0) (2, 0) ∧
      (AStar.find_path ((Grid.make 3 1).set_cell (1, 0) CellType.OBSTACLE)
          (0, 0) (2, 0) ⟨true, true⟩ {}).completed = true ∧
      (AStar.find_path ((Grid.make 3 1).set_cell (1, 0) CellType.OBSTACLE)
          (0, 0) (2, 0) ⟨true, true⟩ {}).path = none := by
  have hwall : ¬ Reachable ((Grid.make 3 1).set_cell (1, 0) CellType.OBSTACLE)
      (0, 0) (2, 0) := by
    rintro ⟨l, hne, hhead, hlast, hsteps, hwalk⟩
    match l with
    | [] => exact hne rfl
    | [x] =>
      rw [List.head?_singleton, Option.some.injEq] at hhead
      rw [List.getLast?_singleton, Option.some.injEq] at hlast
      rw [hhead] at hlast
      exact absurd hlast (by decide)
    | x :: y :: rest =>
      rw [List.head?_cons, Option.some.injEq] at hhead
      subst hhead
      rw [ValidSteps, List.chain'_cons] at hsteps
      have hy := hsteps.1
      have : ((Grid.make 3 1).set_cell (1, 0) CellType.OBSTACLE).get_neighbors
          (0, 0) = [] := by decide
      rw [this] at hy
      exact absurd hy (List.not_mem_nil _)
  exact ⟨by decide, by decide, hwall,
    (claim_C2_unreachable_halts _ _ _ ⟨true, true⟩ {} (by decide) (by decide)
      hwall).1,
    (claim_C2_unreachable_halts _ _ _ ⟨true, true⟩ {} (by decide) (by decide)
      hwall).2⟩

/-! ## Claim C7: the observer call trace -/

/-- The argument shape the claim asserts: four positional arguments
`(open-positions, visited-positions, node-table, current-position)`. -/
def FourArgShape (ev : List PyArg) : Prop :=
  ∃ o c nm cur, ev = [PyArg.posSet o, PyArg.posSet c, PyArg.table nm,
    PyArg.position cur]

/-- With the observer and stats supplied, every recorded callback
invocation has the five-argument shape actually passed by the code, and
exactly one invocation happens per node expansion (stale pops neither
expand nor invoke). -/
theorem loopA_events (t : Pos) :
    ∀ fuel st aux,
      (∀ ev ∈ (loopA t ⟨true, true⟩ fuel st aux).auxOf.events,
        ev ∈ aux.events ∨
          ∃ o c nm cur, ev = mkCallbackArgs o c nm cur) ∧
      (loopA t ⟨true, true⟩ fuel st aux).auxOf.stats.nodes_explored +
          aux.events.length =
        aux.stats.nodes_explored +
          (loopA t ⟨true, true⟩ fuel st aux).auxOf.events.length := by
  intro fuel
  induction fuel with
  | zero =>
    intro st aux
    exact ⟨fun ev hev => Or.inl hev, rfl⟩
  | succ fuel ih =>
    intro st aux
    rw [loopA]
    cases hpop : popMin st.open_set with
    | none => exact ⟨fun ev hev => Or.inl hev, rfl⟩
    | some pr =>
      obtain ⟨e, rest⟩ := pr
      dsimp only
      simp only [if_pos (rfl : (true : Bool) = true), if_true]
      by_cases hcl : e.2.2.position ∈ st.closed_set
      · simp only [if_pos hcl]
        obtain ⟨hsh, hct⟩ := ih { st with open_set := rest } _
        refine ⟨hsh, ?_⟩
        dsimp only at hct ⊢
        omega
      · simp only [if_neg hcl]
        by_cases hgoal : e.2.2.position = t
        · simp only [if_pos hgoal]
          dsimp only [RunResult.auxOf]
          constructor
          · intro ev hev
            rcases List.mem_append.mp hev with h | h
            · exact Or.inl h
            · rw [List.mem_singleton] at h
              exact Or.inr ⟨_, _, _, _, h⟩
          · simp only [List.length_append, List.length_singleton]
            omega
        · simp only [if_neg hgoal]
          obtain ⟨hsh, hct⟩ := ih
            (expandAll (aux.grid.get_neighbors e.2.2.position) t e.2.2
              { st with
                open_set := rest
                closed_set := insert e.2.2.position st.closed_set
                open_positions := st.open_positions.erase e.2.2.position }) _
          constructor
          · intro ev hev
            rcases hsh ev hev with h | h
            · dsimp only at h
              rcases List.mem_append.mp h with h | h
              · exact Or.inl h
              · rw [List.mem_singleton] at h
                exact Or.inr ⟨_, _, _, _, h⟩
            · exact Or.inr h
          · dsimp only at hct ⊢
            simp only [List.length_append, List.length_singleton] at hct
            omega

/-- C7 (amended): with an observer (and stats) supplied, each recorded
observer invocation passes five positional arguments — open positions,
visited positions, a literal `None` path placeholder, the node table,
and the just-expanded position, in that order — and the number of
invocations equals the number of node expansions (`nodes_explored`
increase), so stale duplicate pops never trigger an invocation. -/
theorem claim_C7_observer_five_args (g : Grid) (s t : Pos)
    (stats0 : AlgorithmStats) :
    (∀ ev ∈ (AStar.find_path g s t ⟨true, true⟩ stats0).events,
      ∃ o c nm cur, ev = mkCallbackArgs o c nm cur) ∧
      (AStar.find_path g s t ⟨true, true⟩ stats0).stats.nodes_explored =
        stats0.nodes_explored +
          (AStar.find_path g s t ⟨true, true⟩ stats0).events.length := by
  rw [AStar.find_path]
  split
  · exact ⟨fun ev hev => absurd hev (List.not_mem_nil _), by simp⟩
  · dsimp only
    obtain ⟨hsh, hct⟩ := loopA_events t (fuelBound g) _
      { stats := stats0, events := [], statsLog := [], grid := g }
    constructor
    · intro ev hev
      rcases hsh ev hev with h | h
      · exact absurd h (List.not_mem_nil _)
      · exact h
    · simpa using hct

/-- Witness for C7 (amended) at a concrete input: the single invocation
of the 1×1 run has the five-argument shape. -/
theorem claim_C7_observer_five_args_witness :
    mkCallbackArgs ∅ {((0 : ℤ), (0 : ℤ))}
        [(((0 : ℤ), (0 : ℤ)), SNode.root ((⟨0, 0⟩ : Q2), 0)
          ((0 : ℤ), (0 : ℤ)) ⟨0, 0⟩ 0)] ((0 : ℤ), (0 : ℤ)) ∈
        (AStar.find_path (Grid.make 1 1) (0, 0) (0, 0) ⟨true, true⟩
          {}).events ∧
      ∃ o c nm cur,
        mkCallbackArgs ∅ {((0 : ℤ), (0 : ℤ))}
            [(((0 : ℤ), (0 : ℤ)), SNode.root ((⟨0, 0⟩ : Q2), 0)
              ((0 : ℤ), (0 : ℤ)) ⟨0, 0⟩ 0)] ((0 : ℤ), (0 : ℤ)) =
          mkCallbackArgs o c nm cur :=
  ⟨by decide,
    (claim_C7_observer_five_args (Grid.make 1 1) (0, 0) (0, 0) {}).1 _
      (by decide)⟩

/-- C7 counterexample: the claim as stated — four positional arguments
`(open, visited, node-table, position)` — is false: on the 1×1 grid the
code invokes the callback with five positional arguments, the third
being the literal `None` path placeholder
(`visualize_callback(open_positions, closed_set, None, node_map,
current.position)` in the source). -/
theorem claim_C7_counterexample :
    ¬ ∀ ev ∈ (AStar.find_path (Grid.make 1 1) (0, 0) (0, 0) ⟨true, true⟩
        {}).events, FourArgShape ev := by
  intro h
  have hmem : mkCallbackArgs ∅ {((0 : ℤ), (0 : ℤ))}
      [(((0 : ℤ), (0 : ℤ)), SNode.root ((⟨0, 0⟩ : Q2), 0)
        ((0 : ℤ), (0 : ℤ)) ⟨0, 0⟩ 0)] ((0 : ℤ), (0 : ℤ)) ∈
      (AStar.find_path (Grid.make 1 1) (0, 0) (0, 0) ⟨true, true⟩
        {}).events := by decide
  obtain ⟨o, c, nm, cur, heq⟩ := h _ hmem
  rw [mkCallbackArgs] at heq
  simp at heq

/-! ## Claim C9: stats invariants -/

/-- With stats supplied, `nodes_explored` equals the number of closed
positions, hence never exceeds the number of walkable cells: here shown
as an invariant over the loop, covering every per-iteration snapshot
and the final record. -/
theorem loopA_explored_le (g : Grid) (t : Pos) (obs : Bool) :
    ∀ fuel st aux, aux.grid = g → PosInv g st →
      aux.stats.nodes_explored = st.closed_set.card →
      (∀ x ∈ aux.statsLog, x.nodes_explored ≤ g.walkableCells.card) →
      (∀ x ∈ (loopA t ⟨obs, true⟩ fuel st aux).auxOf.statsLog,
          x.nodes_explored ≤ g.walkableCells.card) ∧
        (loopA t ⟨obs, true⟩ fuel st aux).auxOf.stats.nodes_explored ≤
          g.walkableCells.card := by
  intro fuel
  induction fuel with
  | zero =>
    intro st aux hg hpos hexp hlog
    refine ⟨hlog, ?_⟩
    show aux.stats.nodes_explored ≤ _
    rw [hexp]
    exact closed_card_le hpos
  | succ fuel ih =>
    intro st aux hg hpos hexp hlog
    rw [loopA]
    cases hpop : popMin st.open_set with
    | none =>
      refine ⟨hlog, ?_⟩
      show aux.stats.nodes_explored ≤ _
      rw [hexp]
      exact closed_card_le hpos
    | some pr =>
      obtain ⟨e, rest⟩ := pr
      dsimp only
      simp only [if_pos (rfl : (true : Bool) = true), if_true]
      have hbound : st.closed_set.card ≤ g.walkableCells.card :=
        closed_card_le hpos
      by_cases hcl : e.2.2.position ∈ st.closed_set
      · simp only [if_pos hcl]
        refine ih _ _ ?_ ?_ ?_ ?_
        · exact hg
        · exact ⟨fun x hx => hpos.openWalk x (popMin_rest_subset hpop x hx),
            hpos.closedWalk⟩
        · exact hexp
        · intro x hx
          dsimp only at hx
          rcases List.mem_append.mp hx with h | h
          · exact hlog x h
          · rw [List.mem_singleton] at h
            subst h
            show aux.stats.nodes_explored ≤ _
            rw [hexp]
            exact hbound
      · simp only [if_neg hcl]
        have hewalk : g.is_walkable e.2.2.position = true :=
          hpos.openWalk e (popMin_spec hpop).1
        have hcard1 : (insert e.2.2.position st.closed_set).card =
            st.closed_set.card + 1 := Finset.card_insert_of_not_mem hcl
        have hpos1 : PosInv g
            { st with
              open_set := rest
              closed_set := insert e.2.2.position st.closed_set
              open_positions := st.open_positions.erase e.2.2.position } := by
          constructor
          · exact fun x hx => hpos.openWalk x (popMin_rest_subset hpop x hx)
          · intro p hp
            rcases Finset.mem_insert.mp hp with h | h
            · subst h
              exact hewalk
            · exact hpos.closedWalk p h
        have hbound1 : st.closed_set.card + 1 ≤ g.walkableCells.card := by
          have := closed_card_le hpos1
          rwa [show ({ st with
              open_set := rest
              closed_set := insert e.2.2.position st.closed_set
              open_positions :=
                st.open_positions.erase e.2.2.position } : AlgState).closed_set
            = insert e.2.2.position st.closed_set from rfl, hcard1] at this
        by_cases hgoal : e.2.2.position = t
        · simp only [if_pos hgoal]
          constructor
          · intro x hx
            rcases List.mem_append.mp hx with h | h
            · exact hlog x h
            · rw [List.mem_singleton] at h
              subst h
              show aux.stats.nodes_explored ≤ _
              rw [hexp]
              exact hbound
          · show aux.stats.nodes_explored + 1 ≤ _
            rw [hexp]
            exact hbound1
        · simp only [if_neg hgoal]
          refine ih _ _ ?_ ?_ ?_ ?_
          · exact hg
          · apply posInv_expandAll
            · intro q hq
              rw [hg] at hq
              exact get_neighbors_walkable hq
            · exact hpos1
          · show aux.stats.nodes_explored + 1 = _
            rw [expandAll_closed_eq]
            dsimp only
            rw [hexp, hcard1]
          · intro x hx
            dsimp only at hx
            rcases List.mem_append.mp hx with h | h
            · exact hlog x h
            · rw [List.mem_singleton] at h
              subst h
              show aux.stats.nodes_explored ≤ _
              rw [hexp]
              exact hbound

/-- Extending the per-iteration stats log by a snapshot no smaller than
everything logged keeps the `max_open_size` log a nondecreasing chain. -/
theorem chain_append_ge {log : List AlgorithmStats} {new : AlgorithmStats}
    (hch : List.Chain' (fun a b => a.max_open_size ≤ b.max_open_size) log)
    (hb : ∀ x ∈ log, x.max_open_size ≤ new.max_open_size) :
    List.Chain' (fun a b => a.max_open_size ≤ b.max_open_size)
        (log ++ [new]) ∧
      ∀ x ∈ log ++ [new], x.max_open_size ≤ new.max_open_size := by
  constructor
  · rw [List.chain'_append]
    refine ⟨hch, List.chain'_singleton _, ?_⟩
    intro x hx y hy
    simp only [List.head?_cons, Option.mem_def, Option.some.injEq] at hy
    subst hy
    exact hb x (by
      cases log with
      | nil => simp at hx
      | cons a as => exact List.mem_of_mem_getLast? hx)
  · intro x hx
    rcases List.mem_append.mp hx with h | h
    · exact hb x h
    · rw [List.mem_singleton] at h
      subst h
      exact le_rfl

/-- `max_open_size` never decreases from one logged iteration to the
next, for any flag configuration. -/
theorem loopA_maxchain (t : Pos) (cfg : RunCfg) :
    ∀ fuel st aux,
      List.Chain' (fun a b => a.max_open_size ≤ b.max_open_size)
        aux.statsLog →
      (∀ x ∈ aux.statsLog, x.max_open_size ≤ aux.stats.max_open_size) →
      List.Chain' (fun a b => a.max_open_size ≤ b.max_open_size)
          (loopA t cfg fuel st aux).auxOf.statsLog ∧
        ∀ x ∈ (loopA t cfg fuel st aux).auxOf.statsLog,
          x.max_open_size ≤
            (loopA t cfg fuel st aux).auxOf.stats.max_open_size := by
  intro fuel
  induction fuel with
  | zero =>
    intro st aux hch hb
    exact ⟨hch, hb⟩
  | succ fuel ih =>
    intro st aux hch hb
    rw [loopA]
    cases hpop : popMin st.open_set with
    | none => exact ⟨hch, hb⟩
    | some pr =>
      obtain ⟨e, rest⟩ := pr
      dsimp only
      by_cases hhs : cfg.hasStats = true
      · simp only [hhs, if_pos (rfl : (true : Bool) = true), if_true]
        have hstep := @chain_append_ge _
          { aux.stats with
            iterations := aux.stats.iterations + 1
            nodes_in_open := st.open_set.length
            max_open_size := max aux.stats.max_open_size
              st.open_set.length } hch
          (fun x hx => le_trans (hb x hx) (le_max_left _ _))
        by_cases hcl : e.2.2.position ∈ st.closed_set
        · simp only [if_pos hcl]
          exact ih _ _ hstep.1 hstep.2
        · simp only [if_neg hcl]
          by_cases hgoal : e.2.2.position = t
          · simp only [if_pos hgoal]
            exact ⟨hstep.1, hstep.2⟩
          · simp only [if_neg hgoal]
            exact ih _ _ hstep.1 hstep.2
      · simp only [if_neg hhs]
        have hstep := @chain_append_ge _ aux.stats hch hb
        by_cases hcl : e.2.2.position ∈ st.closed_set
        · simp only [if_pos hcl]
          exact ih _ _ hstep.1 hstep.2
        · simp only [if_neg hcl]
          by_cases hgoal : e.2.2.position = t
          · simp only [if_pos hgoal]
            exact ⟨hstep.1, hstep.2⟩
          · simp only [if_neg hgoal]
            exact ih _ _ hstep.1 hstep.2

/-- C9: in every run with a (fresh) stats record supplied, at the top of
every loop iteration (the ghost per-iteration log) and at the end of the
run, `nodes_explored` is at most the number of walkable cells, and the
logged `max_open_size` values form a nondecreasing chain. -/
theorem claim_C9_stats_invariants (g : Grid) (s t : Pos) (obs : Bool) :
    (∀ x ∈ (AStar.find_path g s t ⟨obs, true⟩ {}).statsLog,
        x.nodes_explored ≤ g.walkableCells.card) ∧
      (AStar.find_path g s t ⟨obs, true⟩ {}).stats.nodes_explored ≤
        g.walkableCells.card ∧
      List.Chain' (fun a b => a.max_open_size ≤ b.max_open_size)
        (AStar.find_path g s t ⟨obs, true⟩ {}).statsLog := by
  rw [AStar.find_path]
  by_cases hc : ¬ (g.is_walkable s = true ∧ g.is_walkable t = true)
  · rw [if_pos hc]
    exact ⟨fun x hx => absurd hx (List.not_mem_nil _), Nat.zero_le _,
      List.chain'_nil⟩
  · rw [if_neg hc]
    push_neg at hc
    dsimp only
    obtain ⟨h1, h2⟩ := loopA_explored_le g t obs (fuelBound g)
      { open_set := [((⟨0, 0⟩, AStar.heuristicSq s t), 0,
          SNode.root (⟨0, 0⟩, AStar.heuristicSq s t) s ⟨0, 0⟩
            (AStar.heuristicSq s t))]
        counter := 1
        g_scores := [(s, ⟨0, 0⟩)]
        closed_set := ∅
        node_map := [(s, SNode.root (⟨0, 0⟩, AStar.heuristicSq s t) s ⟨0, 0⟩
          (AStar.heuristicSq s t))]
        open_positions := {s} }
      { stats := {}, events := [], statsLog := [], grid := g } rfl
      (by
        constructor
        · intro e he
          rw [List.mem_singleton] at he
          subst he
          simpa [SNode.position] using hc.1
        · intro p hp
          simp at hp)
      (by simp)
      (fun x hx => absurd hx (List.not_mem_nil _))
    refine ⟨h1, h2, ?_⟩
    exact (loopA_maxchain t ⟨obs, true⟩ (fuelBound g) _
      { stats := {}, events := [], statsLog := [], grid := g }
      List.chain'_nil (fun x hx => absurd hx (List.not_mem_nil _))).1

/-- Witness for C9 at a concrete input: the first logged snapshot of the
2×1 run obeys the walkable-cell bound. -/
theorem claim_C9_stats_invariants_witness :
    ({ nodes_explored := 0, nodes_in_open := 1, max_open_size := 1,
        path_length := 0, path_cost := ⟨0, 0⟩, iterations := 1 } :
          AlgorithmStats) ∈
        (AStar.find_path (Grid.make 2 1) (0, 0) (1, 0) ⟨true, true⟩
          {}).statsLog ∧
      ({ nodes_explored := 0, nodes_in_open := 1, max_open_size := 1,
          path_length := 0, path_cost := ⟨0, 0⟩, iterations := 1 } :
            AlgorithmStats).nodes_explored ≤
        (Grid.make 2 1).walkableCells.card :=
  ⟨by decide,
    (claim_C9_stats_invariants (Grid.make 2 1) (0, 0) (1, 0) true).1 _
      (by decide)⟩

/-! ## The main search invariant (claim C1) -/

theorem mem_eraseFirst_of_ne {l : List Entry} {a b : Entry} (h : a ∈ l)
    (hne : a ≠ b) : a ∈ eraseFirst l b := by
  induction l with
  | nil => simp at h
  | cons x xs ih =>
    rw [eraseFirst]
    by_cases hx : x = b
    · rw [if_pos hx]
      rcases List.mem_cons.mp h with h | h
      · exact absurd (h.trans hx) hne
      · exact h
    · rw [if_neg hx]
      rcases List.mem_cons.mp h with h | h
      · exact h ▸ List.mem_cons_self _ _
      · exact List.mem_cons_of_mem _ (ih h)

/-- The A* state invariant: frontier entries carry well-formed nodes
with consistent scores; the best-cost table under-approximates every
frontier node, is realizable by actual paths, has an authoritative
frontier entry for every unclosed position, and is optimal on closed
positions; closed positions have relaxed all their outgoing edges; the
start is closed or cheap; the goal is not closed while running. -/
structure Inv (g : Grid) (s t : Pos) (st : AlgState) : Prop where
  entryWF : ∀ e ∈ st.open_set, NodeWF g s t e.2.2 ∧ e.1 = e.2.2.f_score
  gLower : ∀ e ∈ st.open_set, ∃ gv,
    lookupA st.g_scores e.2.2.position = some gv ∧ gv.val ≤ e.2.2.g_score.val
  auth : ∀ p, p ∉ st.closed_set → ∀ gv, lookupA st.g_scores p = some gv →
    ∃ e ∈ st.open_set, e.2.2.position = p ∧ e.2.2.g_score = gv
  gSound : ∀ p gv, lookupA st.g_scores p = some gv →
    ∃ l, ValidPath g s p l ∧ pathCost l = gv
  closedOpt : ∀ p ∈ st.closed_set, ∃ gv, lookupA st.g_scores p = some gv ∧
    ∀ l, ValidPath g s p l → gv.val ≤ (pathCost l).val
  frontier : ∀ v ∈ st.closed_set, ∀ q ∈ g.get_neighbors v,
    q ∉ st.closed_set → ∃ gv gq, lookupA st.g_scores v = some gv ∧
      lookupA st.g_scores q = some gq ∧
      gq.val ≤ gv.val + (AStar.get_movement_cost v q).val
  startLow : s ∈ st.closed_set ∨
    ∃ gv, lookupA st.g_scores s = some gv ∧ gv.val ≤ 0
  goalOpen : t ∉ st.closed_set

/-- A stale pop (position already closed) preserves the invariant. -/
theorem inv_stale {g : Grid} {s t : Pos} {st : AlgState} {e : Entry}
    {rest : List Entry} (hinv : Inv g s t st)
    (hpop : popMin st.open_set = some (e, rest))
    (hcl : e.2.2.position ∈ st.closed_set) :
    Inv g s t { st with open_set := rest } := by
  obtain ⟨hmem, hrest, -⟩ := popMin_spec hpop
  constructor
  · exact fun x hx => hinv.entryWF x (popMin_rest_subset hpop x hx)
  · exact fun x hx => hinv.gLower x (popMin_rest_subset hpop x hx)
  · intro p hp gv hgv
    obtain ⟨e2, he2, hpos, hgs⟩ := hinv.auth p hp gv hgv
    refine ⟨e2, ?_, hpos, hgs⟩
    rw [hrest]
    apply mem_eraseFirst_of_ne he2
    intro hc
    rw [hc] at hpos
    rw [hpos] at hcl
    exact hp hcl
  · exact hinv.gSound
  · exact hinv.closedOpt
  · exact hinv.frontier
  · exact hinv.startLow
  · exact hinv.goalOpen

/-- One expansion step can only lower recorded best costs. -/
theorem expandOne_g_mono (t : Pos) (cur : SNode) (st : AlgState) (npos : Pos) :
    ∀ p gv, lookupA st.g_scores p = some gv →
      ∃ gv2, lookupA (expandOne t cur st npos).g_scores p = some gv2 ∧
        gv2.val ≤ gv.val := by
  intro p gv hgv
  rw [expandOne]
  split
  · exact ⟨gv, hgv, le_rfl⟩
  · dsimp only
    cases hlk : lookupA st.g_scores npos with
    | none =>
      simp only [hlk]
      by_cases hp : p = npos
      · rw [hp] at hgv
        rw [hgv] at hlk
        exact absurd hlk (by simp)
      · dsimp only
        rw [if_neg (by simp)]
        dsimp only
        exact ⟨gv, by rw [lookupA_updateA_ne _ _ hp, hgv], le_rfl⟩
    | some gv0 =>
      simp only [hlk]
      dsimp only
      by_cases hskip : Q2.nonnegb
          ((cur.g_score + AStar.get_movement_cost cur.position npos).sub gv0) =
            true
      · rw [if_pos hskip]
        exact ⟨gv, hgv, le_rfl⟩
      · rw [if_neg hskip]
        dsimp only
        by_cases hp : p = npos
        · subst hp
          rw [hgv] at hlk
          injection hlk with hlk
          subst hlk
          refine ⟨_, lookupA_updateA_self _ _ _, ?_⟩
          have : ¬ (0 : ℝ) ≤
              ((cur.g_score + AStar.get_movement_cost cur.position p).sub
                gv).val := fun hc => hskip ((Q2.nonnegb_iff _).mpr hc)
          rw [Q2.val_subr] at this
          linarith
        · exact ⟨gv, by rw [lookupA_updateA_ne _ _ hp, hgv], le_rfl⟩

theorem expandAll_g_mono (ns : List Pos) (t : Pos) (cur : SNode)
    (st : AlgState) :
    ∀ p gv, lookupA st.g_scores p = some gv →
      ∃ gv2, lookupA (expandAll ns t cur st).g_scores p = some gv2 ∧
        gv2.val ≤ gv.val := by
  induction ns generalizing st with
  | nil => exact fun p gv h => ⟨gv, h, le_rfl⟩
  | cons q qs ih =>
    intro p gv hgv
    simp only [expandAll] at ih ⊢
    rw [List.foldl_cons]
    obtain ⟨gv1, hgv1, hle1⟩ := expandOne_g_mono t cur st q p gv hgv
    obtain ⟨gv2, hgv2, hle2⟩ := ih _ p gv1 hgv1
    exact ⟨gv2, hgv2, le_trans hle2 hle1⟩

/-- Recorded costs of closed positions are untouched by expansion (the
fold never updates a closed position). -/
theorem expandOne_g_at_closed (t : Pos) (cur : SNode) (st : AlgState)
    (npos : Pos) (p : Pos) (hp : p ∈ st.closed_set) :
    lookupA (expandOne t cur st npos).g_scores p = lookupA st.g_scores p := by
  rw [expandOne]
  split
  · rfl
  · dsimp only
    split
    · rfl
    · dsimp only
      apply lookupA_updateA_ne
      intro hc
      subst hc
      next hnpos _ => exact hnpos hp

theorem expandAll_g_at_closed (ns : List Pos) (t : Pos) (cur : SNode)
    (st : AlgState) (p : Pos) (hp : p ∈ st.closed_set) :
    lookupA (expandAll ns t cur st).g_scores p = lookupA st.g_scores p := by
  induction ns generalizing st with
  | nil => rfl
  | cons q qs ih =>
    simp only [expandAll] at ih ⊢
    rw [List.foldl_cons, ih _ (by rwa [expandOne_closed_eq]),
      expandOne_g_at_closed _ _ _ _ _ hp]

/-- Frontier cover, walking version: a neighbor chain from a closed
position `v` (with recorded cost `dv`) to an unclosed position `z` is
covered by some frontier entry whose g-score plus remaining chain cost
is no worse than `dv` plus the chain's cost. -/
theorem inv_cover_from {g : Grid} {s t : Pos} {st : AlgState}
    (hinv : Inv g s t st) :
    ∀ l : List Pos, ∀ v z : Pos, ∀ dv : Q2,
      l.head? = some v → l.getLast? = some z → ValidSteps g l →
      v ∈ st.closed_set → lookupA st.g_scores v = some dv →
      z ∉ st.closed_set →
      ∃ e ∈ st.open_set, ∃ l2 : List Pos,
        l2.head? = some e.2.2.position ∧ l2.getLast? = some z ∧
        ValidSteps g l2 ∧
        e.2.2.g_score.val + (pathCost l2).val ≤ dv.val + (pathCost l).val := by
  intro l
  induction l with
  | nil =>
    intro v z dv hh _ _ _ _ _
    simp at hh
  | cons x rest ih =>
    intro v z dv hh hlst hsteps hvc hdv hzc
    have hxv : x = v := by
      rw [List.head?_cons, Option.some.injEq] at hh
      exact hh
    subst hxv
    match rest with
    | [] =>
      have hxz : x = z := by
        rw [List.getLast?_singleton, Option.some.injEq] at hlst
        exact hlst
      exact absurd (hxz ▸ hvc) hzc
    | y :: rest2 =>
      have hchain := hsteps
      rw [ValidSteps, List.chain'_cons] at hchain
      obtain ⟨hstep, hchain2⟩ := hchain
      have hlst2 : (y :: rest2).getLast? = some z := by
        rwa [List.getLast?_cons_cons] at hlst
      by_cases hyc : y ∈ st.closed_set
      · obtain ⟨lv, hlv, hcost⟩ := hinv.gSound x dv hdv
        have hext := validPath_extend y hlv hstep
        obtain ⟨dy, hdy, hoptY⟩ := hinv.closedOpt y hyc
        have hdyle : dy.val ≤ dv.val + (AStar.get_movement_cost x y).val := by
          have h1 := hoptY _ hext
          rw [pathCost_append_single y hlv.1 hlv.2.2.1, Q2.val_add, hcost]
            at h1
          exact h1
        obtain ⟨e, he, l2, h1, h2, h3, hb⟩ :=
          ih y z dy (by simp) hlst2 hchain2 hyc hdy hzc
        refine ⟨e, he, l2, h1, h2, h3, ?_⟩
        rw [pathCost_cons₂, Q2.val_add]
        linarith
      · obtain ⟨gv, gq, hgv, hgq, hb⟩ :=
          hinv.frontier x hvc y hstep hyc
        rw [hdv, Option.some.injEq] at hgv
        subst hgv
        obtain ⟨e, he, hpos, hgsc⟩ := hinv.auth y hyc gq hgq
        refine ⟨e, he, y :: rest2, by rw [hpos]; simp, hlst2, hchain2, ?_⟩
        rw [hgsc, pathCost_cons₂, Q2.val_add]
        linarith

/-- Frontier cover: while the goal of a valid path is unclosed, some
frontier entry starts a chain to it at no greater total g-cost. -/
theorem inv_cover {g : Grid} {s t : Pos} {st : AlgState}
    (hinv : Inv g s t st) {l : List Pos} {z : Pos}
    (hvp : ValidPath g s z l) (hzc : z ∉ st.closed_set) :
    ∃ e ∈ st.open_set, ∃ l2 : List Pos,
      l2.head? = some e.2.2.position ∧ l2.getLast? = some z ∧
      ValidSteps g l2 ∧
      e.2.2.g_score.val + (pathCost l2).val ≤ (pathCost l).val := by
  obtain ⟨hne, hhead, hlast, hsteps, hwalk⟩ := hvp
  by_cases hsc : s ∈ st.closed_set
  · obtain ⟨d0, hd0, hopt⟩ := hinv.closedOpt s hsc
    have hsw : g.is_walkable s = true := by
      apply hwalk
      exact List.mem_of_mem_head? (by rw [hhead]; exact rfl)
    have hd0z : d0.val ≤ 0 := by
      have h1 := hopt [s] (validPath_refl hsw)
      rw [pathCost_single, val_z] at h1
      exact h1
    obtain ⟨e, he, l2, h1, h2, h3, hb⟩ :=
      inv_cover_from hinv l s z d0 hhead hlast hsteps hsc hd0 hzc
    exact ⟨e, he, l2, h1, h2, h3, by linarith⟩
  · rcases hinv.startLow with h | ⟨g0, hg0, hle0⟩
    · exact absurd h hsc
    · obtain ⟨e, he, hpos, hgsc⟩ := hinv.auth s hsc g0 hg0
      refine ⟨e, he, l, by rw [hpos]; exact hhead, hlast, hsteps, ?_⟩
      rw [hgsc]
      linarith

/-- A non-stale popped node's g-score is optimal: no valid path to its
position is cheaper.  Uses pop minimality, the cover lemma, and
consistency of the heuristic. -/
theorem popped_g_optimal {g : Grid} {s t : Pos} {st : AlgState} {e : Entry}
    {rest : List Entry} (hinv : Inv g s t st)
    (hpop : popMin st.open_set = some (e, rest))
    (hncl : e.2.2.position ∉ st.closed_set) :
    ∀ l, ValidPath g s e.2.2.position l →
      e.2.2.g_score.val ≤ (pathCost l).val := by
  intro l hl
  obtain ⟨e2, he2, l2, hh, hlst, hsteps, hb⟩ := inv_cover hinv hl hncl
  have hmin := (popMin_spec hpop).2.2 e2 he2
  have hfle : fval e.1 ≤ fval e2.1 := by
    rcases hmin with h | ⟨h, -⟩
    · exact le_of_lt h
    · exact le_of_eq h
  obtain ⟨hwf1, hfs1⟩ := hinv.entryWF e (popMin_spec hpop).1
  obtain ⟨hwf2, hfs2⟩ := hinv.entryWF e2 he2
  have hfe1 : fval e.1 = e.2.2.g_score.val +
      Real.sqrt ((AStar.heuristicSq e.2.2.position t : ℕ) : ℝ) := by
    rw [hfs1, hwf1.f_eq]
    rfl
  have hfe2 : fval e2.1 = e2.2.2.g_score.val +
      Real.sqrt ((AStar.heuristicSq e2.2.2.position t : ℕ) : ℝ) := by
    rw [hfs2, hwf2.f_eq]
    rfl
  have htel := chain_h_le t l2 hsteps e2.2.2.position e.2.2.position hh hlst
  rw [hfe1, hfe2] at hfle
  linarith

/-! ## Preservation of the invariant across one expansion -/

/-- The tentative g-score computed for neighbor `q` of the current node. -/
def tentG (cur : SNode) (q : Pos) : Q2 :=
  cur.g_score + AStar.get_movement_cost cur.position q

/-- The child node `expandOne` pushes for neighbor `q`. -/
def childN (t : Pos) (cur : SNode) (q : Pos) : SNode :=
  SNode.child (tentG cur q, AStar.heuristicSq q t) q (tentG cur q)
    (AStar.heuristicSq q t) cur

/-- The state after `expandOne` takes its push branch for neighbor `q`. -/
def pushSt (t : Pos) (cur : SNode) (st : AlgState) (q : Pos) : AlgState :=
  { st with
    g_scores := updateA st.g_scores q (tentG cur q)
    open_set := st.open_set ++
      [((tentG cur q, AStar.heuristicSq q t), st.counter, childN t cur q)]
    counter := st.counter + 1
    open_positions := insert q st.open_positions
    node_map := updateA st.node_map q (childN t cur q) }

/-- The invariant during the neighbor fold of one expansion: all `Inv`
fields except that edge relaxation is only required of previously
closed vertices other than the current one, plus facts about the
current node (well-formed, closed, with its g-score recorded). -/
structure ExInv (g : Grid) (s t : Pos) (cur : SNode) (st : AlgState) :
    Prop where
  entryWF : ∀ e ∈ st.open_set, NodeWF g s t e.2.2 ∧ e.1 = e.2.2.f_score
  gLower : ∀ e ∈ st.open_set, ∃ gv,
    lookupA st.g_scores e.2.2.position = some gv ∧ gv.val ≤ e.2.2.g_score.val
  auth : ∀ p, p ∉ st.closed_set → ∀ gv, lookupA st.g_scores p = some gv →
    ∃ e ∈ st.open_set, e.2.2.position = p ∧ e.2.2.g_score = gv
  gSound : ∀ p gv, lookupA st.g_scores p = some gv →
    ∃ l, ValidPath g s p l ∧ pathCost l = gv
  closedOpt : ∀ p ∈ st.closed_set, ∃ gv, lookupA st.g_scores p = some gv ∧
    ∀ l, ValidPath g s p l → gv.val ≤ (pathCost l).val
  frontierOld : ∀ v ∈ st.closed_set, v ≠ cur.position →
    ∀ q ∈ g.get_neighbors v, q ∉ st.closed_set →
      ∃ gv gq, lookupA st.g_scores v = some gv ∧
        lookupA st.g_scores q = some gq ∧
        gq.val ≤ gv.val + (AStar.get_movement_cost v q).val
  startLow : s ∈ st.closed_set ∨
    ∃ gv, lookupA st.g_scores s = some gv ∧ gv.val ≤ 0
  goalOpen : t ∉ st.closed_set
  curWF : NodeWF g s t cur
  curClosed : cur.position ∈ st.closed_set
  curG : ∃ gv0, lookupA st.g_scores cur.position = some gv0 ∧
    gv0.val = cur.g_score.val

/-- The push branch of `expandOne` preserves the fold invariant,
provided the new tentative g-score strictly improves on any recorded
one (which is exactly when the branch is taken). -/
theorem exInv_push {g : Grid} {s t : Pos} {cur : SNode} {st : AlgState}
    (hs : g.is_walkable s = true) (h : ExInv g s t cur st) {q : Pos}
    (hq : q ∈ g.get_neighbors cur.position) (hqc : q ∉ st.closed_set)
    (hlow : ∀ gv0, lookupA st.g_scores q = some gv0 →
      (tentG cur q).val < gv0.val) :
    ExInv g s t cur (pushSt t cur st q) := by
  have hqne : q ≠ cur.position := ((mem_get_neighbors_iff g _ q).mp hq).1
  have hwfc : NodeWF g s t (childN t cur q) := NodeWF.child h.curWF hq
  constructor
  · intro x hx
    simp only [pushSt, List.mem_append, List.mem_singleton] at hx
    rcases hx with hx | hx
    · exact h.entryWF x hx
    · subst hx
      exact ⟨hwfc, rfl⟩
  · intro x hx
    simp only [pushSt, List.mem_append, List.mem_singleton] at hx
    rcases hx with hx | hx
    · obtain ⟨gv, hgv, hle⟩ := h.gLower x hx
      by_cases hpq : x.2.2.position = q
      · rw [hpq] at hgv ⊢
        refine ⟨tentG cur q, ?_, ?_⟩
        · simp only [pushSt]
          exact lookupA_updateA_self _ _ _
        · exact le_of_lt (lt_of_lt_of_le (hlow gv hgv) hle)
      · refine ⟨gv, ?_, hle⟩
        simp only [pushSt]
        rw [lookupA_updateA_ne _ _ hpq]
        exact hgv
    · subst hx
      refine ⟨tentG cur q, ?_, le_refl _⟩
      simp only [pushSt]
      exact lookupA_updateA_self _ _ _
  · intro p hp gv hgv
    by_cases hpq : p = q
    · subst hpq
      simp only [pushSt] at hgv
      rw [lookupA_updateA_self] at hgv
      injection hgv with hgv
      refine ⟨((tentG cur p, AStar.heuristicSq p t), st.counter,
        childN t cur p), ?_, rfl, ?_⟩
      · simp [pushSt]
      · rw [← hgv]
        rfl
    · have hp' : p ∉ st.closed_set := hp
      simp only [pushSt] at hgv
      rw [lookupA_updateA_ne _ _ hpq] at hgv
      obtain ⟨x, hx, hpos, hgsc⟩ := h.auth p hp' gv hgv
      refine ⟨x, ?_, hpos, hgsc⟩
      simp only [pushSt, List.mem_append]
      exact Or.inl hx
  · intro p gv hgv
    by_cases hpq : p = q
    · subst hpq
      simp only [pushSt] at hgv
      rw [lookupA_updateA_self] at hgv
      injection hgv with hgv
      obtain ⟨hvp, hcost⟩ := h.curWF.reconstruct_valid hs
      refine ⟨AStar.reconstruct_path cur ++ [p],
        validPath_extend p hvp hq, ?_⟩
      rw [pathCost_append_single p hvp.1 hvp.2.2.1, hcost, ← hgv]
      rfl
    · simp only [pushSt] at hgv
      rw [lookupA_updateA_ne _ _ hpq] at hgv
      exact h.gSound p gv hgv
  · intro p hp
    obtain ⟨gv, hgv, hopt⟩ := h.closedOpt p hp
    refine ⟨gv, ?_, hopt⟩
    simp only [pushSt]
    rw [lookupA_updateA_ne _ _ (fun hc => hqc (by rw [← hc]; exact hp))]
    exact hgv
  · intro v hv hvne r hr hrc
    obtain ⟨gv, gq, hgv, hgq, hb⟩ := h.frontierOld v hv hvne r hr hrc
    have hvq : v ≠ q := fun hc => hqc (hc ▸ hv)
    by_cases hrq : r = q
    · subst hrq
      refine ⟨gv, tentG cur r, ?_, ?_, ?_⟩
      · simp only [pushSt]
        rw [lookupA_updateA_ne _ _ hvq]
        exact hgv
      · simp only [pushSt]
        exact lookupA_updateA_self _ _ _
      · have := hlow gq hgq
        linarith
    · refine ⟨gv, gq, ?_, ?_, hb⟩
      · simp only [pushSt]
        rw [lookupA_updateA_ne _ _ hvq]
        exact hgv
      · simp only [pushSt]
        rw [lookupA_updateA_ne _ _ hrq]
        exact hgq
  · rcases h.startLow with hsl | ⟨g0, hg0, hle0⟩
    · exact Or.inl hsl
    · by_cases hsq2 : s = q
      · subst hsq2
        refine Or.inr ⟨tentG cur s, ?_, ?_⟩
        · simp only [pushSt]
          exact lookupA_updateA_self _ _ _
        · have := hlow g0 hg0
          linarith
      · refine Or.inr ⟨g0, ?_, hle0⟩
        simp only [pushSt]
        rw [lookupA_updateA_ne _ _ hsq2]
        exact hg0
  · exact h.goalOpen
  · exact h.curWF
  · exact h.curClosed
  · obtain ⟨gv0, hgv0, he0⟩ := h.curG
    refine ⟨gv0, ?_, he0⟩
    simp only [pushSt]
    rw [lookupA_updateA_ne _ _ (fun hc => hqne hc.symm)]
    exact hgv0

/-- One `expandOne` call preserves the fold invariant, and if the
neighbor is not closed its recorded cost afterwards is at most the
tentative cost through the current node. -/
theorem exInv_expandOne {g : Grid} {s t : Pos} {cur : SNode} {st : AlgState}
    (hs : g.is_walkable s = true) (h : ExInv g s t cur st) {q : Pos}
    (hq : q ∈ g.get_neighbors cur.position) :
    ExInv g s t cur (expandOne t cur st q) ∧
      (q ∉ st.closed_set →
        ∃ gq, lookupA (expandOne t cur st q).g_scores q = some gq ∧
          gq.val ≤ (tentG cur q).val) := by
  rw [expandOne]
  by_cases hqc : q ∈ st.closed_set
  · rw [if_pos hqc]
    exact ⟨h, fun hn => absurd hqc hn⟩
  · rw [if_neg hqc]
    dsimp only
    cases hlk : lookupA st.g_scores q with
    | some gv0 =>
      simp only [hlk]
      by_cases hskip : Q2.nonnegb
          ((cur.g_score + AStar.get_movement_cost cur.position q).sub gv0) =
            true
      · rw [if_pos hskip]
        refine ⟨h, fun _ => ⟨gv0, hlk, ?_⟩⟩
        have h0 := (Q2.nonnegb_iff _).mp hskip
        rw [Q2.val_subr, Q2.val_add] at h0
        rw [tentG, Q2.val_add]
        linarith
      · rw [if_neg hskip]
        have hlow : ∀ g1, lookupA st.g_scores q = some g1 →
            (tentG cur q).val < g1.val := by
          intro g1 hg1
          rw [hlk] at hg1
          injection hg1 with hg1
          subst hg1
          have h0 : ¬ (0 : ℝ) ≤
              ((cur.g_score + AStar.get_movement_cost cur.position q).sub
                gv0).val := fun hc => hskip ((Q2.nonnegb_iff _).mpr hc)
          rw [Q2.val_subr, Q2.val_add] at h0
          rw [tentG, Q2.val_add]
          linarith
        exact ⟨exInv_push hs h hq hqc hlow,
          fun _ => ⟨tentG cur q, lookupA_updateA_self _ _ _, le_refl _⟩⟩
    | none =>
      simp only [hlk]
      rw [if_neg (by simp)]
      have hlow : ∀ g1, lookupA st.g_scores q = some g1 →
          (tentG cur q).val < g1.val := by
        intro g1 hg1
        rw [hlk] at hg1
        exact absurd hg1 (by simp)
      exact ⟨exInv_push hs h hq hqc hlow,
        fun _ => ⟨tentG cur q, lookupA_updateA_self _ _ _, le_refl _⟩⟩

/-- The whole neighbor fold preserves the invariant and relaxes every
processed neighbor edge. -/
theorem exInv_expandAll {g : Grid} {s t : Pos} {cur : SNode}
    (hs : g.is_walkable s = true) (ns : List Pos) :
    ∀ st : AlgState, (∀ q ∈ ns, q ∈ g.get_neighbors cur.position) →
      ExInv g s t cur st →
      ExInv g s t cur (expandAll ns t cur st) ∧
        ∀ q ∈ ns, q ∉ st.closed_set →
          ∃ gq, lookupA (expandAll ns t cur st).g_scores q = some gq ∧
            gq.val ≤ (tentG cur q).val := by
  induction ns with
  | nil =>
    exact fun st _ h => ⟨h, fun q hq => absurd hq (List.not_mem_nil q)⟩
  | cons q qs ih =>
    intro st hns h
    simp only [expandAll] at ih ⊢
    rw [List.foldl_cons]
    obtain ⟨h1, hrelax1⟩ := exInv_expandOne hs h (hns q (List.mem_cons_self q qs))
    obtain ⟨h2, hrelax2⟩ := ih (expandOne t cur st q)
      (fun r hr => hns r (List.mem_cons_of_mem q hr)) h1
    refine ⟨h2, ?_⟩
    intro r hr hrc
    rcases List.mem_cons.mp hr with hrq | hrqs
    · subst hrq
      obtain ⟨gq, hgq, hle⟩ := hrelax1 hrc
      obtain ⟨gq2, hgq2, hle2⟩ :=
        expandAll_g_mono qs t cur (expandOne t cur st r) r gq hgq
      exact ⟨gq2, hgq2, le_trans hle2 hle⟩
    · have hrc' : r ∉ (expandOne t cur st q).closed_set := by
        rw [expandOne_closed_eq]
        exact hrc
      exact hrelax2 r hrqs hrc'

/-- A non-stale, non-goal expansion step preserves the main invariant. -/
theorem inv_expand {g : Grid} {s t : Pos} {st : AlgState} {e : Entry}
    {rest : List Entry} (hs : g.is_walkable s = true) (hinv : Inv g s t st)
    (hpop : popMin st.open_set = some (e, rest))
    (hncl : e.2.2.position ∉ st.closed_set) (hnt : e.2.2.position ≠ t) :
    Inv g s t (expandAll (g.get_neighbors e.2.2.position) t e.2.2
      { st with
        open_set := rest
        closed_set := insert e.2.2.position st.closed_set
        open_positions := st.open_positions.erase e.2.2.position }) := by
  obtain ⟨hemem, hrest, -⟩ := popMin_spec hpop
  obtain ⟨hwfe, hfse⟩ := hinv.entryWF e hemem
  have hopt := popped_g_optimal hinv hpop hncl
  obtain ⟨gv0, hgv0, hglow⟩ := hinv.gLower e hemem
  have hgv0eq : gv0.val = e.2.2.g_score.val := by
    refine le_antisymm hglow ?_
    obtain ⟨l0, hl0, hc0⟩ := hinv.gSound _ gv0 hgv0
    have h1 := hopt l0 hl0
    rw [hc0] at h1
    exact h1
  have hex : ExInv g s t e.2.2
      { st with
        open_set := rest
        closed_set := insert e.2.2.position st.closed_set
        open_positions := st.open_positions.erase e.2.2.position } := by
    constructor
    · exact fun x hx => hinv.entryWF x (popMin_rest_subset hpop x hx)
    · exact fun x hx => hinv.gLower x (popMin_rest_subset hpop x hx)
    · intro p hp gv hgv
      have hp' : p ∉ st.closed_set := fun hc => hp (Finset.mem_insert_of_mem hc)
      have hpne : p ≠ e.2.2.position := fun hc =>
        hp (by rw [hc]; exact Finset.mem_insert_self _ _)
      obtain ⟨x, hxmem, hxpos, hxg⟩ := hinv.auth p hp' gv hgv
      refine ⟨x, ?_, hxpos, hxg⟩
      show x ∈ rest
      rw [hrest]
      apply mem_eraseFirst_of_ne hxmem
      intro hc
      apply hpne
      rw [← hxpos, hc]
    · exact hinv.gSound
    · intro p hp
      rcases Finset.mem_insert.mp hp with hpc | hpc
      · subst hpc
        exact ⟨gv0, hgv0, fun l hl => by rw [hgv0eq]; exact hopt l hl⟩
      · exact hinv.closedOpt p hpc
    · intro v hv hvne r hr hrc
      have hv' : v ∈ st.closed_set := by
        rcases Finset.mem_insert.mp hv with h1 | h1
        · exact absurd h1 hvne
        · exact h1
      have hrc' : r ∉ st.closed_set := fun hc => hrc (Finset.mem_insert_of_mem hc)
      exact hinv.frontier v hv' r hr hrc'
    · rcases hinv.startLow with h1 | h1
      · exact Or.inl (Finset.mem_insert_of_mem h1)
      · exact Or.inr h1
    · intro hc
      rcases Finset.mem_insert.mp hc with h1 | h1
      · exact hnt h1.symm
      · exact hinv.goalOpen h1
    · exact hwfe
    · exact Finset.mem_insert_self _ _
    · exact ⟨gv0, hgv0, hgv0eq⟩
  obtain ⟨hfin, hrelax⟩ :=
    exInv_expandAll hs (g.get_neighbors e.2.2.position) _ (fun q hq => hq) hex
  constructor
  · exact hfin.entryWF
  · exact hfin.gLower
  · exact hfin.auth
  · exact hfin.gSound
  · exact hfin.closedOpt
  · intro v hv r hr hrc
    by_cases hvc : v = e.2.2.position
    · subst hvc
      have hrc' : r ∉ (insert e.2.2.position st.closed_set : Finset Pos) := by
        rw [expandAll_closed_eq] at hrc
        exact hrc
      obtain ⟨gq, hgq, hle⟩ := hrelax r hr hrc'
      obtain ⟨gvc, hgvc, hgvce⟩ := hfin.curG
      refine ⟨gvc, gq, hgvc, hgq, ?_⟩
      rw [hgvce]
      rw [tentG, Q2.val_add] at hle
      exact hle
    · have hv' : v ∈ (insert e.2.2.position st.closed_set : Finset Pos) := by
        rw [expandAll_closed_eq] at hv
        exact hv
      have hrc' : r ∉ (insert e.2.2.position st.closed_set : Finset Pos) := by
        rw [expandAll_closed_eq] at hrc
        exact hrc
      obtain ⟨gv, gq, hgv, hgq, hb⟩ := hex.frontierOld v hv' hvc r hr hrc'
      have hgvf := expandAll_g_at_closed (g.get_neighbors e.2.2.position) t
        e.2.2
        { st with
          open_set := rest
          closed_set := insert e.2.2.position st.closed_set
          open_positions := st.open_positions.erase e.2.2.position } v hv'
      obtain ⟨gq2, hgq2, hle2⟩ :=
        expandAll_g_mono (g.get_neighbors e.2.2.position) t e.2.2 _ r gq hgq
      refine ⟨gv, gq2, ?_, hgq2, by linarith⟩
      rw [hgvf]
      exact hgv
  · exact hfin.startLow
  · exact hfin.goalOpen

/-! ## The main loop theorem and claim C1 -/

/-- Under the search invariant, an adequately fueled loop run on a
reachable goal ends in `found` with a valid, cost-minimal path. -/
theorem loop_opt (g : Grid) (s t : Pos) (cfg : RunCfg)
    (hs : g.is_walkable s = true) :
    ∀ fuel st aux, aux.grid = g → PosInv g st → Inv g s t st →
      measureOf g st < fuel → Reachable g s t →
      ∃ p st2 aux2, loopA t cfg fuel st aux = RunResult.found p st2 aux2 ∧
        ValidPath g s t p ∧
        ∀ l, ValidPath g s t l → (pathCost p).val ≤ (pathCost l).val := by
  intro fuel
  induction fuel with
  | zero =>
    intro st aux hg hpos hinv hm hreach
    omega
  | succ fuel ih =>
    intro st aux hg hpos hinv hm hreach
    rw [loopA]
    cases hpop : popMin st.open_set with
    | none =>
      obtain ⟨l, hl⟩ := hreach
      obtain ⟨e2, he2, -⟩ := inv_cover hinv hl hinv.goalOpen
      rw [(popMin_eq_none_iff _).mp hpop] at he2
      simp at he2
    | some pr =>
      obtain ⟨e, rest⟩ := pr
      dsimp only
      have hemem := (popMin_spec hpop).1
      have hlen := popMin_length hpop
      by_cases hcl : e.2.2.position ∈ st.closed_set
      · rw [if_pos hcl]
        refine ih _ _ hg ?_ ?_ ?_ hreach
        · exact ⟨fun x hx => hpos.openWalk x (popMin_rest_subset hpop x hx),
            hpos.closedWalk⟩
        · exact inv_stale hinv hpop hcl
        · rw [measureOf] at hm ⊢
          dsimp only
          omega
      · rw [if_neg hcl]
        by_cases hgoal : e.2.2.position = t
        · rw [if_pos hgoal]
          obtain ⟨hwfe, -⟩ := hinv.entryWF e hemem
          obtain ⟨hvp, hcost⟩ := hwfe.reconstruct_valid hs
          refine ⟨AStar.reconstruct_path e.2.2, _, _, rfl, ?_, ?_⟩
          · rw [hgoal] at hvp
            exact hvp
          · intro l hl
            have hl' : ValidPath g s e.2.2.position l := by
              rw [hgoal]
              exact hl
            have hle := popped_g_optimal hinv hpop hcl l hl'
            rw [hcost]
            exact hle
        · rw [if_neg hgoal]
          rw [hg]
          refine ih _ _ rfl ?_ ?_ ?_ hreach
          · apply posInv_expandAll
            · intro q hq
              exact get_neighbors_walkable hq
            · exact ⟨fun x hx => hpos.openWalk x (popMin_rest_subset hpop x hx),
                fun p hp => by
                  rcases Finset.mem_insert.mp hp with h1 | h1
                  · subst h1
                    exact hpos.openWalk e hemem
                  · exact hpos.closedWalk p h1⟩
          · exact inv_expand hs hinv hpop hcl hgoal
          · have := measure_expand_lt hpop hpos hcl
              (g.get_neighbors e.2.2.position)
              (get_neighbors_length_le g _) t
            omega

/-- C1: for every grid and every walkable start and end connected under
the 8-directional movement rule with corner-cutting excluded,
`find_path` returns a path from start to end (nonempty, starting at
`start`, ending at `end`, stepping only to neighbors, avoiding
obstacles) whose total cost — the sum of `get_movement_cost` over
consecutive positions (cardinal 1, diagonal √2) — is minimal over all
obstacle-avoiding paths between start and end. -/
theorem claim_C1_optimal_path (g : Grid) (s t : Pos) (cfg : RunCfg)
    (stats0 : AlgorithmStats) (hs : g.is_walkable s = true)
    (ht : g.is_walkable t = true) (hreach : Reachable g s t) :
    ∃ p, (AStar.find_path g s t cfg stats0).path = some p ∧
      ValidPath g s t p ∧
      ∀ l, ValidPath g s t l → (pathCost p).val ≤ (pathCost l).val := by
  rw [AStar.find_path, if_neg (by simp [hs, ht])]
  dsimp only
  obtain ⟨p, st2, aux2, hres, hvp, hopt⟩ :=
    loop_opt g s t cfg hs (fuelBound g)
      { open_set := [((⟨0, 0⟩, AStar.heuristicSq s t), 0,
          SNode.root (⟨0, 0⟩, AStar.heuristicSq s t) s ⟨0, 0⟩
            (AStar.heuristicSq s t))]
        counter := 1
        g_scores := [(s, ⟨0, 0⟩)]
        closed_set := ∅
        node_map := [(s, SNode.root (⟨0, 0⟩, AStar.heuristicSq s t) s ⟨0, 0⟩
          (AStar.heuristicSq s t))]
        open_positions := {s} }
      { stats := stats0, events := [], statsLog := [], grid := g }
      rfl
      (by
        constructor
        · intro x hx
          rw [List.mem_singleton] at hx
          subst hx
          simpa [SNode.position] using hs
        · intro p hp
          simp at hp)
      (by
        constructor
        · intro x hx
          rw [List.mem_singleton] at hx
          subst hx
          exact ⟨NodeWF.root, rfl⟩
        · intro x hx
          rw [List.mem_singleton] at hx
          subst hx
          exact ⟨⟨0, 0⟩, by simp [lookupA, SNode.position], le_refl _⟩
        · intro p hp gv hgv
          simp only [lookupA] at hgv
          by_cases hsp : s = p
          · rw [if_pos hsp] at hgv
            injection hgv with hgv
            refine ⟨((⟨0, 0⟩, AStar.heuristicSq s t), 0,
              SNode.root (⟨0, 0⟩, AStar.heuristicSq s t) s ⟨0, 0⟩
                (AStar.heuristicSq s t)), List.mem_singleton_self _, hsp, ?_⟩
            rw [← hgv]
            rfl
          · rw [if_neg hsp] at hgv
            exact absurd hgv (by simp [lookupA])
        · intro p gv hgv
          simp only [lookupA] at hgv
          by_cases hsp : s = p
          · rw [if_pos hsp] at hgv
            injection hgv with hgv
            subst hsp
            exact ⟨[s], validPath_refl hs, by rw [← hgv]; rfl⟩
          · rw [if_neg hsp] at hgv
            exact absurd hgv (by simp [lookupA])
        · intro p hp
          simp at hp
        · intro v hv
          simp at hv
        · refine Or.inr ⟨⟨0, 0⟩, by simp [lookupA], ?_⟩
          rw [val_z]
        · simp)
      (by
        rw [measureOf, fuelBound]
        simp only [List.length_singleton, Finset.sdiff_empty]
        omega)
      hreach
  refine ⟨p, ?_, hvp, hopt⟩
  rw [hres]
  rfl

/-- Witness for C1 at a concrete input: the 2×1 empty grid, start
`(0,0)`, end `(1,0)`, connected by the one-step path. -/
theorem claim_C1_optimal_path_witness :
    ∃ p, (AStar.find_path (Grid.make 2 1) ((0 : ℤ), (0 : ℤ))
        ((1 : ℤ), (0 : ℤ)) ⟨false, false⟩ {}).path = some p ∧
      ValidPath (Grid.make 2 1) (0, 0) (1, 0) p ∧
      ∀ l, ValidPath (Grid.make 2 1) (0, 0) (1, 0) l →
        (pathCost p).val ≤ (pathCost l).val :=
  claim_C1_optimal_path (Grid.make 2 1) (0, 0) (1, 0) ⟨false, false⟩ {}
    (by decide) (by decide)
    ⟨[(0, 0), (1, 0)], by decide, by decide, by decide,
      by
        simp only [ValidSteps, List.chain'_cons, List.chain'_singleton,
          and_true]
        decide,
      by decide⟩

end AStarSpec
